import Mathlib

/-!
# Crawl engine and validator reconciler of `services/node_services.go`

A shallow embedding of the node monitor.  `Nodo` objects live in a store addressed by
natural numbers (the `*Nodo` pointers of the source); the three Go maps `visited`, `set`
and `all` are association lists with unique keys; network requests are answered by an
environment and recorded in a request log; the regular expressions of the source are
parameters of the environment (each returns the list of submatch lists that
`FindAllStringSubmatch(text, -1)` returns).  A Go run-time panic (index out of range) is
the result `none`.
-/

namespace Monitor

/-! ## Data model -/

/-- Go `Peer`: only `Id`, `Name` and `Network.RemoteAddress` are ever written. -/
structure Peer where
  Id : String
  Name : String
  RemoteAddress : String
deriving DecidableEq, Repr

/-- Go `Nodo`. `LastUpdate` is a time stamp, here a natural number. -/
structure Nodo where
  Entidad : String
  Contactos : List String
  Enode : String
  IP : String
  Port : String
  PrivateFor : String
  Coinbase : String
  Monitor : String
  Peers : List Peer
  Validators : List String
  Incidencias : String
  LastUpdate : Nat
deriving DecidableEq, Repr

instance : Inhabited Nodo := ⟨⟨"", [], "", "", "", "", "", "", [], [], "", 0⟩⟩

/-- Go constant `status`. -/
def status : String := "/v1/monitor/status"
/-- Go constant `logsjson`. -/
def logsjson : String := "/v1/node/info/json"
/-- Go constant `proposeURI`. -/
def proposeURI : String := "/v1/node/propose"

/-- A request sent to the fixed service port of a node. -/
inductive Request where
  | get (ip uri : String)
  | post (ip uri candidate value : String)
deriving DecidableEq, Repr

/-- The world outside the program: the network and the compiled regular expressions.
`getJSON log ip uri` is the `Status` field decoded from the answer (`none`: the request
or the decoding failed), `call log ip uri` the raw answer (`none`: error), `post` the
`Status` field decoded from the answer to a propose call.  Every answer may depend on the
requests issued so far (`log`).  The other five fields stand for the package variables
of the same names: `p text` is the value of `p.FindAllStringSubmatch(text, -1)`, one list
of submatches per match, the whole match first. -/
structure Env where
  getJSON : List Request → String → String → Option String
  call : List Request → String → String → Option String
  post : List Request → String → String → String → String → Option String
  nodeInfo_reg : String → List (List String)
  peer_reg : String → List (List String)
  coinbase : String → List (List String)
  getvalidators : String → List (List String)
  eachvalidator : String → List (List String)

/-- Go `NodeServices`, with the store of `Nodo` objects (`store`, next free address `next`)
and the log of issued requests made explicit. -/
structure NodeServices where
  nodos : List Nodo
  store : Nat → Nodo
  next : Nat
  visited : List (String × Bool)
  set : List (String × Nat)
  all : List (String × Nat)
  log : List Request

/-! ## Go maps as association lists -/

/-- Map lookup `m[k]` with the `ok` flag. -/
def mget {α : Type} : List (String × α) → String → Option α
  | [], _ => none
  | (k', v) :: m, k => if k' = k then some v else mget m k

/-- Map assignment `m[k] = v`. -/
def mput {α : Type} : List (String × α) → String → α → List (String × α)
  | [], k, v => [(k, v)]
  | (k', v') :: m, k, v => if k' = k then (k, v) :: m else (k', v') :: mput m k v

/-- Map deletion `delete(m, k)`. -/
def mdel {α : Type} : List (String × α) → String → List (String × α)
  | [], _ => []
  | (k', v') :: m, k => if k' = k then mdel m k else (k', v') :: mdel m k

/-- Keys of a map. -/
def mkeys {α : Type} (m : List (String × α)) : List String := m.map Prod.fst

/-- Go `n.visited[k]`: `false` when the key is absent. -/
def NodeServices.isVisited (n : NodeServices) (k : String) : Bool :=
  (mget n.visited k).getD false

/-- Write through a `*Nodo` pointer. -/
def NodeServices.modify (n : NodeServices) (p : Nat) (f : Nodo → Nodo) : NodeServices :=
  { n with store := Function.update n.store p (f (n.store p)) }

/-! ## Network primitives -/

/-- Go `IsUpAndRunning`: one status probe; alive iff the decoded status is `"ok"`. -/
def IsUpAndRunning (env : Env) (n : NodeServices) (nodo : Nodo) : Bool × NodeServices :=
  ((match env.getJSON n.log nodo.IP status with
    | some s => decide (s = "ok")
    | none => false),
   { n with log := n.log ++ [Request.get nodo.IP status] })

/-- Go `call`: a raw GET. -/
def call (env : Env) (n : NodeServices) (ip uri : String) : Option String × NodeServices :=
  (env.call n.log ip uri, { n with log := n.log ++ [Request.get ip uri] })

/-- Go `strconv.FormatBool`. -/
def FormatBool (b : Bool) : String := if b then "true" else "false"

/-- Go `ProposeSingleNode`: one propose call to the node behind pointer `p`. -/
def ProposeSingleNode (env : Env) (n : NodeServices) (p : Nat) (address : String)
    (value : Bool) : Bool × NodeServices :=
  ((match env.post n.log (n.store p).IP proposeURI address (FormatBool value) with
    | some s => decide (s = "ok")
    | none => false),
   { n with log := n.log ++
      [Request.post (n.store p).IP proposeURI address (FormatBool value)] })

/-! ## Crawl engine -/

/-- Go `getSets`: one fresh object per directory entry; a later entry with the same
enode overwrites the earlier one in both maps. -/
def getSetsLoop : List Nodo → Nat → (Nat → Nodo) → List (String × Bool) →
    List (String × Nat) → Nat × (Nat → Nodo) × List (String × Bool) × List (String × Nat)
  | [], next, store, visited, set => (next, store, visited, set)
  | tmp :: rest, next, store, visited, set =>
      getSetsLoop rest (next + 1) (Function.update store next tmp)
        (mput visited tmp.Enode false) (mput set tmp.Enode next)

/-- Go `n.visited, n.all = n.getSets()`. -/
def getSets (n : NodeServices) : NodeServices :=
  let r := getSetsLoop n.nodos n.next n.store [] []
  { n with next := r.1, store := r.2.1, visited := r.2.2.1, all := r.2.2.2 }

/-- Loop of Go `GetFirstValidatorUp` over the entries from index `cont` on; the second
argument is the current value of the result variable `nodo`. -/
def firstUpLoop (env : Env) : List Nodo → Nodo → NodeServices → Nodo × Bool × NodeServices
  | [], nodo, n => (nodo, false, n)
  | x :: rest, _, n =>
      if x.PrivateFor = "" then
        let r := IsUpAndRunning env n x
        if r.1 then (x, true, r.2) else firstUpLoop env rest x r.2
      else firstUpLoop env rest x n

/-- Go `GetFirstValidatorUp`: the node, the error (`none` is `nil`) and the new state. -/
def GetFirstValidatorUp (env : Env) (n : NodeServices) : Nodo × Option String × NodeServices :=
  let r := firstUpLoop env n.nodos default n
  (r.1, if r.2.1 then none else
      some "No se ha encontrado ningún monitor en ningún nodo validador.", r.2.2)

/-- Go `nodeInfoVerify`; `nodeInfos[0][1]` panics when the pattern has no match. -/
def nodeInfoVerify (env : Env) (n : NodeServices) (p : Nat) : Option NodeServices :=
  match (env.nodeInfo_reg (n.store p).Monitor)[0]? with
  | none => none
  | some m =>
    match m[1]? with
    | none => none
    | some id =>
      if id ≠ (n.store p).Enode then
        some (n.modify p fun nodo =>
          { nodo with Incidencias := nodo.Incidencias ++ "[*] El Enode no coincide." })
      else some n

/-- Body of the loop of Go `peersVerify` for one match `peer`. -/
def peerStep (n : NodeServices) (p : Nat) (peer : List String) : Option NodeServices :=
  match peer[1]?, peer[2]?, peer[3]? with
  | some id, some name, some remote =>
    let n1 := n.modify p fun nodo => { nodo with Peers := nodo.Peers ++ [⟨id, name, remote⟩] }
    match mget n1.all id with
    | some aux =>
      if !n1.isVisited (n1.store aux).Enode then
        some { n1 with set := mput n1.set (n1.store aux).Enode aux }
      else some n1
    | none =>
      some (n1.modify p fun nodo =>
        { nodo with Incidencias := nodo.Incidencias ++ "\n [*] El enode " ++ id ++ ", no es conocido." })
  | _, _, _ => none

/-- Loop of Go `peersVerify` over the matches. -/
def peersLoop (p : Nat) : List (List String) → NodeServices → Option NodeServices
  | [], n => some n
  | peer :: rest, n =>
    match peerStep n p peer with
    | none => none
    | some n1 => peersLoop p rest n1

/-- Go `peersVerify`. -/
def peersVerify (env : Env) (n : NodeServices) (p : Nat) : Option NodeServices :=
  peersLoop p (env.peer_reg (n.store p).Monitor) n

/-- Go string comparison `a <= b`: lexicographic on the UTF-8 bytes, which is the
lexicographic order on the code points. -/
def leStr (a b : String) : Bool := decide (a.toList ≤ b.toList)

/-- Go `sort.Strings` (ascending order). -/
def sortStrings (l : List String) : List String := l.insertionSort fun a b => leStr a b = true

/-- Loop of Go `ibftExtraction` appending `ibftvalidators[cont][1]`. -/
def validatorsLoop (p : Nat) : List (List String) → NodeServices → Option NodeServices
  | [], n => some n
  | m :: rest, n =>
    match m[1]? with
    | none => none
    | some v => validatorsLoop p rest
        (n.modify p fun nodo => { nodo with Validators := nodo.Validators ++ [v] })

/-- Go `ibftExtraction`; `coinbases[0][1]` and `ibftgetvalidators[0][1]` panic when the
pattern has no match.  The tests `len(s) == 0` and `len(s) > 0` on Go strings are made on
the number of characters, which is zero exactly when the number of bytes is. -/
def ibftExtraction (env : Env) (n : NodeServices) (p : Nat) : Option NodeServices :=
  if (n.store p).PrivateFor.length = 0 ∧ (n.store p).Coinbase.length = 0 then
    match (env.coinbase (n.store p).Monitor)[0]? with
    | none => none
    | some cs =>
      match cs[1]? with
      | none => none
      | some cb =>
        let n1 := if cb ≠ (n.store p).Coinbase then
            n.modify p fun nodo => { nodo with Coinbase := cb } else n
        match (env.getvalidators (n1.store p).Monitor)[0]? with
        | none => none
        | some g =>
          match g[1]? with
          | none => none
          | some gv =>
            if gv.length > 0 then
              match validatorsLoop p (env.eachvalidator gv) n1 with
              | none => none
              | some n2 => some (n2.modify p fun nodo =>
                  { nodo with Validators := sortStrings nodo.Validators })
            else some n1
  else some n

/-- Go `nodeVerify` on the object behind pointer `p`. -/
def nodeVerify (env : Env) (n : NodeServices) (p : Nat) : Option NodeServices :=
  let n1 := { n with visited := mput n.visited (n.store p).Enode true }
  let n2 := { n1 with set := mdel n1.set (n1.store p).Enode }
  let up := IsUpAndRunning env n2 (n2.store p)
  if up.1 then
    let r := call env up.2 (up.2.store p).IP logsjson
    match r.1 with
    | some json =>
      let n3 := r.2.modify p fun nodo => { nodo with Monitor := json }
      match nodeInfoVerify env n3 p with
      | none => none
      | some n4 =>
        match peersVerify env n4 p with
        | none => none
        | some n5 =>
          match ibftExtraction env n5 p with
          | none => none
          | some n6 => some { n6 with all := mput n6.all (n6.store p).Enode p }
    | none => some r.2
  else
    some (up.2.modify p fun nodo =>
      { nodo with Incidencias := nodo.Incidencias ++ "\n [*] Parece que el monitor no está disponible." })

/-- Outcome of a run: a result, a Go panic, or the step budget of the model exhausted. -/
inductive Run (α : Type) where
  | done (a : α)
  | panic
  | timeout

/-- The two nested loops of Go `CheckPermission` (`for len(n.set) > 0 { for enode := range
n.set { ... } }`), cut after at most `t` visits.  A `range` over a map yields, in an
unspecified order, keys that are in the map when they are yielded, and the body deletes
the yielded key; so a run is a sequence of visits, each of an arbitrary entry of the
current frontier, until the frontier is empty.  `order` resolves the choice: the next
entry visited is the one at position `order 0` modulo the size of the frontier.  The
result is the state after the visits, `none` after a panic. -/
def visits (env : Env) : Nat → (Nat → Nat) → NodeServices → Option NodeServices
  | 0, _, n => some n
  | t + 1, order, n =>
    match n.set[order 0 % n.set.length]? with
    | none => some n
    | some (_, aux) =>
      match nodeVerify env n aux with
      | none => none
      | some n1 => visits env t (fun i => order (i + 1)) n1

/-- The identifiers handed to `nodeVerify` during `visits`, oldest first (up to a panic). -/
def visitSeq (env : Env) : Nat → (Nat → Nat) → NodeServices → List String
  | 0, _, _ => []
  | t + 1, order, n =>
    match n.set[order 0 % n.set.length]? with
    | none => []
    | some (_, aux) =>
      (n.store aux).Enode ::
        match nodeVerify env n aux with
        | none => []
        | some n1 => visitSeq env t (fun i => order (i + 1)) n1

/-- The crawl loop with a budget of `fuel` visits: it is done when the frontier is empty. -/
def crawl (env : Env) (fuel : Nat) (order : Nat → Nat) (n : NodeServices) : Run NodeServices :=
  match visits env fuel order n with
  | none => Run.panic
  | some n1 => if n1.set.isEmpty then Run.done n1 else Run.timeout

/-- Body of the reporting loop of Go `CheckPermission` for one entry of `n.all`. -/
def reportStep (fecha : Nat) (acc : NodeServices × List Nodo) (e : String × Nat) :
    NodeServices × List Nodo :=
  let n1 := acc.1.modify e.2 fun nodo => { nodo with LastUpdate := fecha }
  let n2 := if !n1.isVisited e.1 then
      n1.modify e.2 fun nodo =>
        { nodo with Incidencias := nodo.Incidencias ++ "\n [*] Parece que el nodo está fuera de línea." }
    else n1
  if (n2.store e.2).Incidencias.length > 0 then (n2, acc.2 ++ [n2.store e.2]) else (n2, acc.2)

/-- Reporting loop of Go `CheckPermission` (`for key := range n.all`), in the order of
the association list. -/
def report (fecha : Nat) (n : NodeServices) : NodeServices × List Nodo :=
  n.all.foldl (reportStep fecha) (n, [])

/-- State of Go `CheckPermission` when the crawl loop is entered: the maps seeded, the
entry node searched, and, when one was found, a fresh copy of it as the only frontier
entry. -/
def crawlStart (env : Env) (n : NodeServices) : NodeServices × Option String :=
  let n1 := getSets n
  let r := GetFirstValidatorUp env n1
  let n2 := { r.2.2 with set := [] }
  if r.2.1 = none then
    ({ n2 with store := Function.update n2.store n2.next r.1, next := n2.next + 1,
               set := mput [] r.1.Enode n2.next }, r.2.1)
  else (n2, r.2.1)

/-- Go `CheckPermission`: the reported nodes and the final state.  `fuel` bounds the
number of visits of the model, `order` fixes the iteration order of the frontier and
`fecha` is the value of `time.Now()`. -/
def CheckPermission (env : Env) (order : Nat → Nat) (fuel : Nat) (fecha : Nat)
    (n : NodeServices) : Run (List Nodo × NodeServices) :=
  let s := crawlStart env n
  match (if s.2 = none then crawl env fuel order s.1 else Run.done s.1) with
  | Run.done n1 => let r := report fecha n1; Run.done (r.2, r.1)
  | Run.panic => Run.panic
  | Run.timeout => Run.timeout

/-! ## Validator reconciler -/

/-- Loop of Go `sort.Search`: binary search for the least index in `[i, j)` at which `f`
holds; `fuel` bounds the number of iterations. -/
def searchLoop (f : Nat → Bool) : Nat → Nat → Nat → Nat
  | 0, i, _ => i
  | fuel + 1, i, j =>
    if i < j then
      let h := (i + j) / 2
      if !f h then searchLoop f fuel (h + 1) j else searchLoop f fuel i h
    else i

/-- Go `sort.SearchStrings(a, x)`. -/
def SearchStrings (a : List String) (x : String) : Nat :=
  searchLoop (fun i => leStr x (a.getD i "")) a.length 0 a.length

/-- The membership test of the source: `i < len(a) && a[i] == x` at the index found by
the binary search. -/
def found (a : List String) (x : String) : Bool :=
  decide (SearchStrings a x < a.length) && decide (a.getD (SearchStrings a x) "" = x)

/-- Go `ListVolunteers`: pointers to the visited nodes with a coinbase. -/
def ListVolunteers (n : NodeServices) : List Nat :=
  (n.all.filter fun e => n.isVisited e.1 && decide ((n.store e.2).Coinbase.length > 0)).map
    Prod.snd

/-- Go `ListValidators`: pointers to the visited nodes whose coinbase is found in their
own validator list. -/
def ListValidators (n : NodeServices) : List Nat :=
  (n.all.filter fun e => n.isVisited e.1 && decide ((n.store e.2).Coinbase.length > 0) &&
      found (n.store e.2).Validators (n.store e.2).Coinbase).map Prod.snd

/-- Loop of Go `ProposeNodes` over the listed validators. -/
def proposeLoop (env : Env) (iskey : String) : List Nat → Bool × NodeServices →
    Bool × NodeServices
  | [], acc => acc
  | aux :: rest, (ok, n) =>
    let proposal := !found (n.store aux).Validators iskey
    if iskey ≠ (n.store aux).Coinbase then
      let r := ProposeSingleNode env n aux iskey proposal
      proposeLoop env iskey rest (r.1 || ok, r.2)
    else proposeLoop env iskey rest (ok, n)

/-- Go `ProposeNodes`. -/
def ProposeNodes (env : Env) (n : NodeServices) (iskey : String) : Bool × NodeServices :=
  proposeLoop env iskey (ListValidators n) (false, n)


/-! ## Notions used in the statements -/

/-- The propose request that `ProposeNodes` sends to the node behind pointer `p`. -/
def proposeRequest (n : NodeServices) (iskey : String) (p : Nat) : Request :=
  Request.post (n.store p).IP proposeURI iskey (FormatBool (!found (n.store p).Validators iskey))

/-- Whether the request `r`, issued after the requests `pre`, reported success. -/
def reportsOk (env : Env) (pre : List Request) : Request → Bool
  | Request.post ip uri candidate value =>
    (match env.post pre ip uri candidate value with
     | some s => decide (s = "ok")
     | none => false)
  | Request.get _ _ => false

/-- The status probes sent to the validator-eligible entries of `l`, in order. -/
def probesOf (l : List Nodo) : List Request :=
  (l.filter fun x => decide (x.PrivateFor = "")).map fun x => Request.get x.IP status

/-- Under a fixed status answer `st`: an entry that is validator-eligible and alive. -/
def eligible (st : String → Option String) (x : Nodo) : Prop :=
  x.PrivateFor = "" ∧ st x.IP = some "ok"


/-- The fields of a node that come from the directory. -/
def dirPart (o : Nodo) : Nodo :=
  { o with Coinbase := "", Monitor := "", Peers := [], Validators := [], Incidencias := "",
           LastUpdate := 0 }

/-- Effect of `nodeInfoVerify` on the node it is given. -/
def nodeInfoObj (env : Env) (o : Nodo) : Option Nodo :=
  match (env.nodeInfo_reg o.Monitor)[0]? with
  | none => none
  | some m =>
    match m[1]? with
    | none => none
    | some id =>
      if id ≠ o.Enode then
        some { o with Incidencias := o.Incidencias ++ "[*] El Enode no coincide." }
      else some o

/-- Effect of one iteration of `peersVerify` on the visiting node, given the map `all`. -/
def peerObj (all : List (String × Nat)) (o : Nodo) (peer : List String) : Option Nodo :=
  match peer[1]?, peer[2]?, peer[3]? with
  | some id, some name, some remote =>
    match mget all id with
    | some _ => some { o with Peers := o.Peers ++ [⟨id, name, remote⟩] }
    | none => some { o with
        Peers := o.Peers ++ [⟨id, name, remote⟩]
        Incidencias := o.Incidencias ++ "\n [*] El enode " ++ id ++ ", no es conocido." }
  | _, _, _ => none

/-- Effect of `peersVerify` on the visiting node. -/
def peersObj (all : List (String × Nat)) : List (List String) → Nodo → Option Nodo
  | [], o => some o
  | peer :: rest, o =>
    match peerObj all o peer with
    | none => none
    | some o1 => peersObj all rest o1

/-- Effect of one iteration of `peersVerify` on the frontier: `vis` is the visited test
and `en` gives the enode stored behind a pointer. -/
def peerSet (all : List (String × Nat)) (vis : String → Bool) (en : Nat → String)
    (set : List (String × Nat)) (peer : List String) : List (String × Nat) :=
  match peer[1]? with
  | some id =>
    match mget all id with
    | some aux => if !vis (en aux) then mput set (en aux) aux else set
    | none => set
  | none => set

/-- Effect of the validator loop of `ibftExtraction` on the node. -/
def validatorsObj : List (List String) → Nodo → Option Nodo
  | [], o => some o
  | m :: rest, o =>
    match m[1]? with
    | none => none
    | some v => validatorsObj rest { o with Validators := o.Validators ++ [v] }

/-- Effect of `ibftExtraction` on the node it is given. -/
def ibftObj (env : Env) (o : Nodo) : Option Nodo :=
  if o.PrivateFor.length = 0 ∧ o.Coinbase.length = 0 then
    match (env.coinbase o.Monitor)[0]? with
    | none => none
    | some cs =>
      match cs[1]? with
      | none => none
      | some cb =>
        match (env.getvalidators o.Monitor)[0]? with
        | none => none
        | some g =>
          match g[1]? with
          | none => none
          | some gv =>
            if gv.length > 0 then
              match validatorsObj (env.eachvalidator gv) { o with Coinbase := cb } with
              | none => none
              | some o2 => some { o2 with Validators := sortStrings o2.Validators }
            else some { o with Coinbase := cb }
  else some o

/-- Effect of a successful snapshot fetch (text `txt`) on the visited node: the merge of
`nodeVerify`. -/
def mergeObj (env : Env) (all : List (String × Nat)) (txt : String) (o : Nodo) : Option Nodo :=
  match nodeInfoObj env { o with Monitor := txt } with
  | none => none
  | some o1 =>
    match peersObj all (env.peer_reg txt) o1 with
    | none => none
    | some o2 => ibftObj env o2

/-- The visited test of a state in which `k` has just been marked. -/
def visitedAfter (n : NodeServices) (k : String) : String → Bool :=
  fun k2 => (mget (mput n.visited k true) k2).getD false

/-- The state that `nodeVerify` produces, in closed form. -/
def visitOutcome (env : Env) (n : NodeServices) (p : Nat) : Option NodeServices :=
  if env.getJSON n.log (n.store p).IP status = some "ok" then
    match env.call (n.log ++ [Request.get (n.store p).IP status]) (n.store p).IP logsjson with
    | none => some { n with
        visited := mput n.visited (n.store p).Enode true
        set := mdel n.set (n.store p).Enode
        log := n.log ++ [Request.get (n.store p).IP status, Request.get (n.store p).IP logsjson] }
    | some txt =>
      match mergeObj env n.all txt (n.store p) with
      | none => none
      | some o1 => some { n with
          visited := mput n.visited (n.store p).Enode true
          set := (env.peer_reg txt).foldl
            (peerSet n.all (visitedAfter n (n.store p).Enode) fun q => (n.store q).Enode)
            (mdel n.set (n.store p).Enode)
          store := Function.update n.store p o1
          all := mput n.all (n.store p).Enode p
          log := n.log ++
            [Request.get (n.store p).IP status, Request.get (n.store p).IP logsjson] }
  else some { n with
      visited := mput n.visited (n.store p).Enode true
      set := mdel n.set (n.store p).Enode
      store := Function.update n.store p { n.store p with
        Incidencias := (n.store p).Incidencias ++ "\n [*] Parece que el monitor no está disponible." }
      log := n.log ++ [Request.get (n.store p).IP status] }

/-- The directory entry that `getSets` registers under the identifier `k`: the last entry
of the list with that enode. -/
def lastWith : List Nodo → String → Option Nodo
  | [], _ => none
  | x :: rest, k =>
    match lastWith rest k with
    | some y => some y
    | none => if x.Enode = k then some x else none

/-- The pointer whose object is visited for the identifier `k`, in a run that starts in
`s0` with the copy of the entry node at address `pE`. -/
def front (s0 : NodeServices) (pE : Nat) (k : String) : Option Nat :=
  if k = (s0.store pE).Enode then some pE else mget s0.all k

/-- What is known of the state `s0` in which the crawl loop is entered, `pE` being the
address of the copy of the entry node. -/
structure Start (s0 : NodeServices) (pE : Nat) : Prop where
  nodup : (mkeys s0.all).Nodup
  ptr : ∀ k q, mget s0.all k = some q → (s0.store q).Enode = k ∧ q ≠ pE
  entry : (s0.store pE).Enode ∈ mkeys s0.all
  fresh : ∀ k, s0.isVisited k = false
  frontier : s0.set = [((s0.store pE).Enode, pE)]

/-- The invariant of the crawl loop. -/
structure Inv (s0 : NodeServices) (pE : Nat) (s : NodeServices) : Prop where
  keys : mkeys s.all = mkeys s0.all
  dir : ∀ q, dirPart (s.store q) = dirPart (s0.store q)
  fr : ∀ e ∈ s.set, s.isVisited e.1 = false ∧ front s0 pE e.1 = some e.2
  untouched : ∀ q, (∀ k, s.isVisited k = true → front s0 pE k ≠ some q) →
    s.store q = s0.store q
  allp : ∀ k, mget s.all k = mget s0.all k ∨
    (s.isVisited k = true ∧ mget s.all k = front s0 pE k)
  vkeys : ∀ k, s.isVisited k = true → k ∈ mkeys s0.all
  entry : s.isVisited (s0.store pE).Enode = true ∨ s.set = [((s0.store pE).Enode, pE)]

/-- The incident notes that `peersVerify` writes for the listed peers that are not keys
of `all`, in the order of the list. -/
def unknownNotes (all : List (String × Nat)) : List (List String) → String
  | [] => ""
  | peer :: rest =>
    (match peer[1]? with
     | some id =>
       if mget all id = none then "\n [*] El enode " ++ id ++ ", no es conocido." else ""
     | none => "") ++ unknownNotes all rest

/-- The node whose status is probed and whose snapshot is read when the identifier `k` is
visited: the copy of the entry node for the entry identifier, the registered directory
entry otherwise. -/
def visitedNode (nodos : List Nodo) (entry : Nodo) (k : String) : Option Nodo :=
  if k = entry.Enode then some entry else lastWith nodos k

/-- A peer edge from `a` to `b` under fixed network answers: the node visited for `a`
answers the status probe with `"ok"`, its snapshot is fetched, the snapshot lists a peer
with id `b`, and `b` is an identifier of the directory. -/
def PeerEdge (env : Env) (st info : String → Option String) (nodos : List Nodo) (entry : Nodo)
    (a b : String) : Prop :=
  ∃ x txt peer, visitedNode nodos entry a = some x ∧ st x.IP = some "ok" ∧
    info x.IP = some txt ∧ peer ∈ env.peer_reg txt ∧ peer[1]? = some b ∧
    b ∈ nodos.map Nodo.Enode

/-- Under fixed network answers: what a visit makes of the node `o`, and whether the
visit registers the visited object in `all`. -/
def fateOf (env : Env) (st info : String → Option String) (all : List (String × Nat))
    (o : Nodo) : Option (Nodo × Bool) :=
  if st o.IP = some "ok" then
    match info o.IP with
    | none => some (o, false)
    | some txt =>
      match mergeObj env all txt o with
      | none => none
      | some o1 => some (o1, true)
  else
    some ({ o with
      Incidencias := o.Incidencias ++ "\n [*] Parece que el monitor no está disponible." }, false)

/-- The crawl start `s0` (entry copy at `pE`) seen from the directory. -/
structure Seeded (nodos : List Nodo) (entry : Nodo) (s0 : NodeServices) (pE : Nat) : Prop where
  start : Start s0 pE
  entryAt : s0.store pE = entry
  last : ∀ k q, mget s0.all k = some q → lastWith nodos k = some (s0.store q)
  keys : ∀ k, k ∈ mkeys s0.all ↔ k ∈ nodos.map Nodo.Enode

/-- The invariants of the crawl loop that hold under fixed network answers. -/
structure InvFix (env : Env) (st info : String → Option String) (nodos : List Nodo)
    (entry : Nodo) (s0 : NodeServices) (pE : Nat) (s : NodeServices) : Prop where
  closed : ∀ a b, PeerEdge env st info nodos entry a b → s.isVisited a = true →
    s.isVisited b = true ∨ b ∈ mkeys s.set
  sound : ∀ k, s.isVisited k = true ∨ k ∈ mkeys s.set →
    Relation.ReflTransGen (PeerEdge env st info nodos entry) entry.Enode k
  fate : ∀ k q, s.isVisited k = true → front s0 pE k = some q →
    ∃ o m, fateOf env st info s0.all (s0.store q) = some (o, m) ∧ s.store q = o ∧
      mget s.all k = if m then some q else mget s0.all k

/-- A reported node without its time stamp. -/
def clearDate (o : Nodo) : Nodo := { o with LastUpdate := 0 }

/-- Effect of one iteration of the reporting loop on the node of the entry: `v` tells
whether the entry's identifier is marked visited. -/
def reportObj (fecha : Nat) (v : Bool) (o : Nodo) : Nodo :=
  if !v then
    { o with
      LastUpdate := fecha
      Incidencias := o.Incidencias ++ "\n [*] Parece que el nodo está fuera de línea." }
  else { o with LastUpdate := fecha }

/-! ## Concrete registries and environments -/

/-- The validator of scenario D, registered under the identifier `"v"` at address `0`. -/
def scenarioD : NodeServices where
  nodos := []
  store := fun _ =>
    { (default : Nodo) with Enode := "v", IP := "10.0.0.1", Coinbase := "0x111",
                            Validators := ["0x111", "0x222"] }
  next := 1
  visited := [("v", true)]
  set := []
  all := [("v", 0)]
  log := []

/-- An environment in which every request is answered `"ok"` and no pattern matches. -/
def envOk : Env where
  getJSON := fun _ _ _ => some "ok"
  call := fun _ _ _ => some ""
  post := fun _ _ _ _ _ => some "ok"
  nodeInfo_reg := fun _ => []
  peer_reg := fun _ => []
  coinbase := fun _ => []
  getvalidators := fun _ => []
  eachvalidator := fun _ => []


/-- A directory entry with the given enode, address and `privateFor`. -/
def mkNodo (enode ip privateFor : String) : Nodo :=
  { (default : Nodo) with Enode := enode, IP := ip, PrivateFor := privateFor }

/-- A service freshly created from the directory `l`. -/
def initial (l : List Nodo) : NodeServices where
  nodos := l
  store := fun _ => default
  next := 0
  visited := []
  set := []
  all := []
  log := []

/-- A network in which exactly the address `"u"` answers the status probe with `"ok"`. -/
def envOnlyU : Env :=
  { envOk with getJSON := fun _ ip _ => if ip = "u" then some "ok" else none }

/-- A directory with a regular node, a validator that is down and one that is up. -/
def dirThree : List Nodo :=
  [mkNodo "r" "u" "key=", mkNodo "d" "d" "", mkNodo "v" "u" ""]

/-- Result list of a finished run (empty when the run did not finish). -/
def outOf : Run (List Nodo × NodeServices) → List Nodo
  | Run.done r => r.1
  | _ => []

/-- Whether a run finished with `k` marked visited. -/
def visitedIn : Run (List Nodo × NodeServices) → String → Bool
  | Run.done r, k => r.2.isVisited k
  | _, _ => false

/-- Whether a run finished. -/
def isDone {α : Type} : Run α → Bool
  | Run.done _ => true
  | _ => false

/-- Whether a run ended in a panic. -/
def isPanic {α : Type} : Run α → Bool
  | Run.panic => true
  | _ => false

/-- Status answers of the toy network: the addresses `"1"` and `"2"` are up. -/
def stToy (ip : String) : Option String := if ip = "1" ∨ ip = "2" then some "ok" else none

/-- Snapshots of the toy network: text `"A"` at address `"1"`, `"B"` at `"2"`. -/
def infoToy (ip : String) : Option String :=
  if ip = "1" then some "A" else if ip = "2" then some "B" else none

/-- The toy network.  The patterns are given by their matches on the two snapshot texts:
`"A"` reports the node `a` with the peers `b`, `zz` and `c`, `"B"` the node `b` with the
peers `c` and `a`. -/
def envToy : Env where
  getJSON := fun _ ip _ => stToy ip
  call := fun _ ip _ => infoToy ip
  post := fun _ _ _ _ _ => some "ok"
  nodeInfo_reg := fun t =>
    if t = "A" then [["", "a", "na"]] else if t = "B" then [["", "b", "nb"]] else []
  peer_reg := fun t =>
    if t = "A" then [["", "b", "nb", "2"], ["", "zz", "nz", "9"], ["", "c", "nc", "3"]]
    else if t = "B" then [["", "c", "nc", "3"], ["", "a", "na", "1"]] else []
  coinbase := fun t =>
    if t = "A" then [["", "0xA"]] else if t = "B" then [["", "0xB"]] else []
  getvalidators := fun t => if t = "A" ∨ t = "B" then [["", "list"]] else []
  eachvalidator := fun t => if t = "list" then [["", "0xB"], ["", "0xA"]] else []

/-- The directory of the toy network: three validators. -/
def dirToy : List Nodo := [mkNodo "a" "1" "", mkNodo "b" "2" "", mkNodo "c" "3" ""]

/-- A network in which every node answers the status probe with `"ok"` and every
snapshot fetch fails. -/
def envFetchFails : Env :=
  { envOk with call := fun _ _ _ => none }

/-- A directory that lists the enode `"e"` twice, at the addresses `"9"` and `"1"`. -/
def dirDup : List Nodo := [mkNodo "e" "9" "", mkNodo "e" "1" ""]

/-- A network in which only the address `"1"` is up; its snapshot `"E"` reports the node
`e`, no peer, the coinbase `0xE` and an empty validator list. -/
def envDup : Env where
  getJSON := fun _ ip _ => if ip = "1" then some "ok" else none
  call := fun _ ip _ => if ip = "1" then some "E" else none
  post := fun _ _ _ _ _ => some "ok"
  nodeInfo_reg := fun t => if t = "E" then [["", "e", "ne"]] else []
  peer_reg := fun _ => []
  coinbase := fun t => if t = "E" then [["", "0xE"]] else []
  getvalidators := fun t => if t = "E" then [["", ""]] else []
  eachvalidator := fun _ => []

/-- The state in which the crawl loop is entered for the one-node directory `[e]` when
every snapshot fetch fails; the copy of the entry node is at address `1`. -/
def startFetchFails : NodeServices :=
  (crawlStart envFetchFails (initial [mkNodo "e" "1" ""])).1

/-- A state of the toy crawl in the middle of the visit of `a` (object at address `0`, its
snapshot `"A"` stored), as `peersVerify` finds it. -/
def toyMid : NodeServices where
  nodos := dirToy
  store := fun q =>
    if q = 0 then { mkNodo "a" "1" "" with Monitor := "A" }
    else if q = 1 then mkNodo "b" "2" "" else mkNodo "c" "3" ""
  next := 3
  visited := [("a", true), ("b", false), ("c", false)]
  set := []
  all := [("a", 0), ("b", 1), ("c", 2)]
  log := []

/-- The service of the toy network as an earlier run may have left it: the same
directory, other maps, another free address and a non-empty request log. -/
def usedToy : NodeServices where
  nodos := dirToy
  store := fun _ => mkNodo "old" "0" ""
  next := 7
  visited := [("a", true), ("b", true)]
  set := [("b", 5)]
  all := [("a", 4), ("b", 5)]
  log := [Request.get "1" status]

/-! ## Binary search -/

theorem leStr_iff (a b : String) : leStr a b = true ↔ a ≤ b := by
  unfold leStr
  rw [decide_eq_true_iff, String.le_iff_toList_le]

theorem searchLoop_spec (f : Nat → Bool) (n : Nat)
    (hmono : ∀ a b, a ≤ b → b < n → f a = true → f b = true) :
    ∀ fuel i j, i ≤ j → j ≤ n → j - i ≤ fuel →
      (∀ k, k < i → f k = false) → (∀ k, j ≤ k → k < n → f k = true) →
      (∀ k, k < searchLoop f fuel i j → f k = false) ∧
      (∀ k, searchLoop f fuel i j ≤ k → k < n → f k = true) ∧
      searchLoop f fuel i j ≤ n := by
  intro fuel
  induction fuel with
  | zero =>
    intro i j hij hjn hfuel hlo hhi
    have hji : j = i := by omega
    subst hji
    exact ⟨hlo, hhi, hjn⟩
  | succ fuel ih =>
    intro i j hij hjn hfuel hlo hhi
    unfold searchLoop
    by_cases hlt : i < j
    · simp only [hlt, if_true]
      have hh1 : i ≤ (i + j) / 2 := by omega
      have hh2 : (i + j) / 2 < j := by omega
      cases hf : f ((i + j) / 2) with
      | false =>
        simp only [Bool.not_false, if_true]
        apply ih ((i + j) / 2 + 1) j (by omega) hjn (by omega) _ hhi
        intro k hk
        by_contra hne
        have hk1 : f k = true := by simpa using hne
        have := hmono k ((i + j) / 2) (by omega) (by omega) hk1
        rw [hf] at this
        exact Bool.noConfusion this
      | true =>
        simp only [Bool.not_true, Bool.false_eq_true, if_false]
        apply ih i ((i + j) / 2) hh1 (by omega) (by omega) hlo
        intro k hk hkn
        exact hmono ((i + j) / 2) k hk hkn hf
    · simp only [hlt, if_false]
      have hji : j = i := by omega
      subst hji
      exact ⟨hlo, hhi, hjn⟩

theorem found_mem (a : List String) (x : String) (h : found a x = true) : x ∈ a := by
  unfold found at h
  simp only [Bool.and_eq_true, decide_eq_true_eq] at h
  obtain ⟨hlt, heq⟩ := h
  rw [List.getD_eq_getElem _ _ hlt] at heq
  rw [← heq]
  exact List.getElem_mem _

theorem found_of_mem (a : List String) (x : String)
    (hs : a.Pairwise (fun u v => u ≤ v)) (h : x ∈ a) : found a x = true := by
  obtain ⟨k, hk, hkx⟩ := List.mem_iff_getElem.mp h
  have hmono : ∀ u v, u ≤ v → v < a.length →
      (fun i => leStr x (a.getD i "")) u = true → (fun i => leStr x (a.getD i "")) v = true := by
    intro u v huv hv hu
    simp only [leStr_iff] at hu ⊢
    rw [List.getD_eq_getElem _ _ hv]
    rw [List.getD_eq_getElem _ _ (by omega : u < a.length)] at hu
    rcases Nat.eq_or_lt_of_le huv with heq | hlt
    · subst heq; exact hu
    · exact le_trans hu (List.pairwise_iff_getElem.mp hs u v _ hv hlt)
  obtain ⟨hlo, hhi, _⟩ := searchLoop_spec _ a.length hmono a.length 0 a.length
    (Nat.zero_le _) (Nat.le_refl _) (by omega) (by intro k hk; omega) (by intro k h1 h2; omega)
  have hfk : leStr x (a.getD k "") = true := by
    rw [leStr_iff, List.getD_eq_getElem _ _ hk, hkx]
  have hrk : SearchStrings a x ≤ k := by
    by_contra hne
    have := hlo k (by unfold SearchStrings at hne; omega)
    simp only at this
    rw [hfk] at this
    exact Bool.noConfusion this
  have hrn : SearchStrings a x < a.length := by omega
  have hfr : leStr x (a.getD (SearchStrings a x) "") = true := hhi _ (Nat.le_refl _) hrn
  rw [leStr_iff, List.getD_eq_getElem _ _ hrn] at hfr
  have hcongr : ∀ (i j : Nat) (hi : i < a.length) (hj : j < a.length), i = j → a[i] = a[j] := by
    intro i j hi hj e; subst e; rfl
  have hle : a[SearchStrings a x] ≤ x := by
    rcases Nat.eq_or_lt_of_le hrk with heq | hlt
    · rw [hcongr _ k hrn hk heq, hkx]
    · have := List.pairwise_iff_getElem.mp hs _ k hrn hk hlt
      rw [hkx] at this
      exact this
  unfold found
  simp only [Bool.and_eq_true, decide_eq_true_eq]
  refine ⟨hrn, ?_⟩
  rw [List.getD_eq_getElem _ _ hrn]
  exact le_antisymm hle hfr

/-! ## Validator reconciler: the propose loop -/

theorem proposeLoop_state (env : Env) (iskey : String) :
    ∀ (l : List Nat) (ok : Bool) (n : NodeServices),
      (proposeLoop env iskey l (ok, n)).2 =
        { n with log := n.log ++
            (l.filter fun p => decide (iskey ≠ (n.store p).Coinbase)).map (proposeRequest n iskey) } := by
  intro l
  induction l with
  | nil => intro ok n; simp [proposeLoop]
  | cons p rest ih =>
    intro ok n
    unfold proposeLoop
    by_cases hc : iskey ≠ (n.store p).Coinbase
    · simp only [hc, if_true, ne_eq, not_false_eq_true]
      rw [ih]
      simp [ProposeSingleNode, List.filter_cons, hc, proposeRequest]
    · simp only [hc, if_false]
      rw [ih]
      simp [List.filter_cons, hc]

theorem proposeLoop_ok (env : Env) (iskey : String) :
    ∀ (l : List Nat) (ok : Bool) (n : NodeServices),
      (proposeLoop env iskey l (ok, n)).1 = true ↔
        ok = true ∨ ∃ i r,
          ((l.filter fun p => decide (iskey ≠ (n.store p).Coinbase)).map
              (proposeRequest n iskey))[i]? = some r ∧
          reportsOk env (n.log ++
            ((l.filter fun p => decide (iskey ≠ (n.store p).Coinbase)).map
              (proposeRequest n iskey)).take i) r = true := by
  intro l
  induction l with
  | nil =>
    intro ok n
    simp [proposeLoop]
  | cons p rest ih =>
    intro ok n
    unfold proposeLoop
    by_cases hc : iskey ≠ (n.store p).Coinbase
    · simp only [hc, if_true, ne_eq, not_false_eq_true]
      rw [ih]
      have hf : (List.filter (fun q => decide (iskey ≠ (n.store q).Coinbase)) (p :: rest)) =
          p :: List.filter (fun q => decide (iskey ≠ (n.store q).Coinbase)) rest := by
        simp [List.filter_cons, hc]
      rw [hf]
      have hpr : proposeRequest
          (ProposeSingleNode env n p iskey (!found (n.store p).Validators iskey)).2 iskey =
          proposeRequest n iskey := by
        funext q; rfl
      rw [hpr]
      simp only [ProposeSingleNode, Bool.or_eq_true, List.map_cons, List.append_assoc,
        List.singleton_append]
      constructor
      · rintro ((h | h) | ⟨i, r, h3, h4⟩)
        · right
          refine ⟨0, proposeRequest n iskey p, by simp, ?_⟩
          simpa [proposeRequest, reportsOk] using h
        · exact Or.inl h
        · right
          exact ⟨i + 1, r, by simpa using h3, by simpa using h4⟩
      · rintro (h | ⟨i, r, h3, h4⟩)
        · exact Or.inl (Or.inr h)
        · cases i with
          | zero =>
            left; left
            simp at h3
            subst h3
            simpa [proposeRequest, reportsOk] using h4
          | succ i =>
            right
            exact ⟨i, r, by simpa using h3, by simpa using h4⟩
    · simp only [hc, if_false]
      rw [ih]
      have hf : (List.filter (fun q => decide (iskey ≠ (n.store q).Coinbase)) (p :: rest)) =
          List.filter (fun q => decide (iskey ≠ (n.store q).Coinbase)) rest := by
        simp [List.filter_cons, hc]
      rw [hf]

/-! ## Association lists -/

theorem mget_mput_same {α : Type} (m : List (String × α)) (k : String) (v : α) :
    mget (mput m k v) k = some v := by
  induction m with
  | nil => simp [mput, mget]
  | cons e m ih =>
    obtain ⟨k1, v1⟩ := e
    by_cases h : k1 = k
    · simp [mput, mget, h]
    · simp [mput, mget, h, ih]

theorem mget_mput_other {α : Type} (m : List (String × α)) (k k2 : String) (v : α) (h : k2 ≠ k) :
    mget (mput m k v) k2 = mget m k2 := by
  induction m with
  | nil => simp [mput, mget, Ne.symm h]
  | cons e m ih =>
    obtain ⟨k1, v1⟩ := e
    by_cases h1 : k1 = k
    · subst h1
      simp [mput, mget, Ne.symm h]
    · by_cases h2 : k1 = k2
      · subst h2
        simp [mput, mget, h1]
      · simp [mput, mget, h1, h2, ih]

theorem mem_mput {α : Type} (m : List (String × α)) (k : String) (v : α) (e : String × α)
    (h : e ∈ mput m k v) : e = (k, v) ∨ e ∈ m := by
  induction m with
  | nil => simp [mput] at h; exact Or.inl h
  | cons e1 m ih =>
    obtain ⟨k1, v1⟩ := e1
    by_cases h1 : k1 = k
    · simp only [mput, h1, if_true, List.mem_cons] at h
      rcases h with h | h
      · exact Or.inl h
      · exact Or.inr (List.mem_cons_of_mem _ h)
    · simp only [mput, h1, if_false, List.mem_cons] at h
      rcases h with h | h
      · exact Or.inr (h ▸ List.mem_cons_self _ _)
      · rcases ih h with h2 | h2
        · exact Or.inl h2
        · exact Or.inr (List.mem_cons_of_mem _ h2)

theorem mem_mput_self {α : Type} (m : List (String × α))
    (k : String) (v : α) : (k, v) ∈ mput m k v := by
  induction m with
  | nil => simp [mput]
  | cons e1 m ih =>
    obtain ⟨k1, v1⟩ := e1
    by_cases h1 : k1 = k
    · simp [mput, h1]
    · simp [mput, h1, ih]

theorem mem_mput_of_mem {α : Type} (m : List (String × α)) (k : String) (v : α) (e : String × α)
    (h : e ∈ m) (hk : e.1 ≠ k) : e ∈ mput m k v := by
  induction m with
  | nil => simp at h
  | cons e1 m ih =>
    obtain ⟨k1, v1⟩ := e1
    by_cases h1 : k1 = k
    · simp only [mput, h1, if_true, List.mem_cons]
      rcases List.mem_cons.mp h with h2 | h2
      · subst h2; exact absurd h1 hk
      · exact Or.inr h2
    · simp only [mput, h1, if_false, List.mem_cons]
      rcases List.mem_cons.mp h with h2 | h2
      · exact Or.inl h2
      · exact Or.inr (ih h2)

theorem mem_mdel {α : Type} (m : List (String × α)) (k : String) (e : String × α) :
    e ∈ mdel m k ↔ e ∈ m ∧ e.1 ≠ k := by
  induction m with
  | nil => simp [mdel]
  | cons e1 m ih =>
    obtain ⟨k1, v1⟩ := e1
    by_cases h1 : k1 = k
    · simp only [mdel, h1, if_true, ih, List.mem_cons]
      constructor
      · rintro ⟨h, hk⟩; exact ⟨Or.inr h, hk⟩
      · rintro ⟨h | h, hk⟩
        · subst h; exact absurd rfl hk
        · exact ⟨h, hk⟩
    · simp only [mdel, h1, if_false, List.mem_cons, ih]
      constructor
      · rintro (h | ⟨h, hk⟩)
        · subst h; exact ⟨Or.inl rfl, h1⟩
        · exact ⟨Or.inr h, hk⟩
      · rintro ⟨h | h, hk⟩
        · exact Or.inl h
        · exact Or.inr ⟨h, hk⟩

theorem mkeys_mput_of_mem {α : Type} (m : List (String × α))
    (k : String) (v : α) (h : k ∈ mkeys m) :
    mkeys (mput m k v) = mkeys m := by
  induction m with
  | nil => simp [mkeys] at h
  | cons e1 m ih =>
    obtain ⟨k1, v1⟩ := e1
    by_cases h1 : k1 = k
    · simp [mput, mkeys, h1]
    · have hk : k ∈ mkeys m := by
        simp only [mkeys, List.map_cons, List.mem_cons] at h
        rcases h with h | h
        · exact absurd h.symm h1
        · exact h
      have := ih hk
      simp only [mkeys] at this
      simp [mput, mkeys, h1, this]

theorem mem_mkeys_mput {α : Type} (m : List (String × α)) (k k2 : String) (v : α) :
    k2 ∈ mkeys (mput m k v) ↔ k2 = k ∨ k2 ∈ mkeys m := by
  constructor
  · intro h
    obtain ⟨e, he, hk⟩ := List.mem_map.mp h
    rcases mem_mput m k v e he with h1 | h1
    · left; rw [← hk, h1]
    · right; exact List.mem_map.mpr ⟨e, h1, hk⟩
  · rintro (h | h)
    · subst h; exact List.mem_map.mpr ⟨_, mem_mput_self m k2 v, rfl⟩
    · by_cases hk : k2 = k
      · subst hk; exact List.mem_map.mpr ⟨_, mem_mput_self m k2 v, rfl⟩
      · obtain ⟨e, he, hek⟩ := List.mem_map.mp h
        exact List.mem_map.mpr ⟨e, mem_mput_of_mem m k v e he (hek ▸ hk), hek⟩

theorem mkeys_mput_of_not_mem {α : Type} (m : List (String × α))
    (k : String) (v : α) (h : k ∉ mkeys m) :
    mkeys (mput m k v) = mkeys m ++ [k] := by
  induction m with
  | nil => simp [mput, mkeys]
  | cons e1 m ih =>
    obtain ⟨k1, v1⟩ := e1
    have h1 : k1 ≠ k := by
      intro e; apply h; simp [mkeys, e]
    have hk : k ∉ mkeys m := by
      intro e; apply h; simp only [mkeys, List.map_cons, List.mem_cons]; exact Or.inr e
    have := ih hk
    simp only [mkeys] at this
    simp [mput, mkeys, h1, this]

theorem nodup_mkeys_mput {α : Type} (m : List (String × α))
    (k : String) (v : α) (h : (mkeys m).Nodup) :
    (mkeys (mput m k v)).Nodup := by
  by_cases hk : k ∈ mkeys m
  · rw [mkeys_mput_of_mem m k v hk]; exact h
  · rw [mkeys_mput_of_not_mem m k v hk]
    exact List.Nodup.append h (List.nodup_singleton k) (by
      intro a ha hb
      rw [List.mem_singleton] at hb
      subst hb
      exact hk ha)

theorem mget_eq_none_iff {α : Type} (m : List (String × α)) (k : String) :
    mget m k = none ↔ k ∉ mkeys m := by
  induction m with
  | nil => simp [mget, mkeys]
  | cons e1 m ih =>
    obtain ⟨k1, v1⟩ := e1
    by_cases h1 : k1 = k
    · simp [mget, mkeys, h1]
    · simp only [mget, h1, if_false, ih, mkeys, List.map_cons, List.mem_cons]
      constructor
      · intro h e
        rcases e with e | e
        · exact h1 e.symm
        · exact h e
      · intro h e
        exact h (Or.inr e)

theorem mem_of_mget {α : Type} (m : List (String × α))
    (k : String) (v : α) (h : mget m k = some v) :
    (k, v) ∈ m := by
  induction m with
  | nil => simp [mget] at h
  | cons e1 m ih =>
    obtain ⟨k1, v1⟩ := e1
    by_cases h1 : k1 = k
    · simp only [mget, h1, if_true, Option.some.injEq] at h
      subst h1; subst h
      exact List.mem_cons_self _ _
    · simp only [mget, h1, if_false] at h
      exact List.mem_cons_of_mem _ (ih h)

theorem mem_mkeys_of_mget {α : Type} (m : List (String × α)) (k : String) (v : α)
    (h : mget m k = some v) : k ∈ mkeys m :=
  List.mem_map.mpr ⟨(k, v), mem_of_mget m k v h, rfl⟩

theorem mget_of_mem {α : Type} (m : List (String × α)) (k : String) (v : α) (hn : (mkeys m).Nodup)
    (h : (k, v) ∈ m) : mget m k = some v := by
  induction m with
  | nil => simp at h
  | cons e1 m ih =>
    obtain ⟨k1, v1⟩ := e1
    simp only [mkeys, List.map_cons, List.nodup_cons] at hn
    rcases List.mem_cons.mp h with h2 | h2
    · injection h2 with ha hb
      subst ha; subst hb
      simp [mget]
    · have hne : k1 ≠ k := by
        intro e
        apply hn.1
        subst e
        exact List.mem_map.mpr ⟨(k1, v), h2, rfl⟩
      simp only [mget, hne, if_false]
      exact ih hn.2 h2


/-! ## Outcomes of runs -/

theorem isDone_exists {α : Type} (r : Run α) (h : isDone r = true) : ∃ a, r = Run.done a := by
  cases r with
  | done a => exact ⟨a, rfl⟩
  | panic => exact Bool.noConfusion h
  | timeout => exact Bool.noConfusion h

theorem isSome_exists {α : Type} (o : Option α) (h : o.isSome = true) : ∃ a, o = some a := by
  cases o with
  | none => exact Bool.noConfusion h
  | some a => exact ⟨a, rfl⟩


theorem listValidators_mem (n : NodeServices) (p : Nat) (h : p ∈ ListValidators n) :
    ∃ e ∈ n.all, e.2 = p := by
  unfold ListValidators at h
  obtain ⟨e, he, hp⟩ := List.mem_map.mp h
  exact ⟨e, (List.mem_filter.mp he).1, hp⟩

theorem listValidators_nodup (n : NodeServices) (h : (n.all.map Prod.snd).Nodup) :
    (ListValidators n).Nodup := by
  unfold ListValidators
  exact List.Nodup.sublist (List.Sublist.map _ (List.filter_sublist _)) h

/-- C8: when every registered validator list is sorted, `ProposeNodes c` changes nothing
but the request log, to which it appends exactly one propose request per entry of
`ListValidators` whose coinbase differs from `c` (none for an entry whose coinbase is `c`,
none to any other node), carrying candidate `c` and the value `"true"` when `c` is not in
that validator's list and `"false"` when it is; the listed entries are pairwise distinct
nodes when the registry maps distinct identifiers to distinct nodes. -/
theorem C8_propose_one_call_per_validator (env : Env) (n : NodeServices) (c : String)
    (hsorted : ∀ e ∈ n.all, (n.store e.2).Validators.Pairwise (fun u v => u ≤ v)) :
    (ProposeNodes env n c).2 =
      { n with
        log := n.log ++
          ((ListValidators n).filter (fun p => decide ((n.store p).Coinbase ≠ c))).map
            (fun p => Request.post (n.store p).IP proposeURI c
              (if c ∈ (n.store p).Validators then "false" else "true")) } ∧
    ((n.all.map Prod.snd).Nodup → (ListValidators n).Nodup) := by
  refine ⟨?_, listValidators_nodup n⟩
  unfold ProposeNodes
  rw [proposeLoop_state]
  have hfilter : (List.filter (fun p => decide (c ≠ (n.store p).Coinbase)) (ListValidators n)) =
      List.filter (fun p => decide ((n.store p).Coinbase ≠ c)) (ListValidators n) := by
    apply List.filter_congr
    intro p _
    by_cases h : c = (n.store p).Coinbase
    · simp [h]
    · have h2 : ¬ (n.store p).Coinbase = c := fun e => h e.symm
      simp [h, h2]
  rw [hfilter]
  have hmap : List.map (proposeRequest n c)
      (List.filter (fun p => decide ((n.store p).Coinbase ≠ c)) (ListValidators n)) =
      List.map (fun p => Request.post (n.store p).IP proposeURI c
              (if c ∈ (n.store p).Validators then "false" else "true"))
      (List.filter (fun p => decide ((n.store p).Coinbase ≠ c)) (ListValidators n)) := by
    apply List.map_congr_left
    intro p hp
    obtain ⟨e, he, hep⟩ := listValidators_mem n p (List.mem_filter.mp hp).1
    have hs := hsorted e he
    rw [hep] at hs
    unfold proposeRequest FormatBool
    by_cases hm : c ∈ (n.store p).Validators
    · simp [hm, found_of_mem _ _ hs hm]
    · have hf : found (n.store p).Validators c = false := by
        cases hfd : found (n.store p).Validators c with
        | false => rfl
        | true => exact absurd (found_mem _ _ hfd) hm
      simp [hm, hf]
  rw [hmap]

/-- C9: `ProposeNodes c` returns `true` exactly when one of the propose requests it
appended to the log reported success (so `false` when it issued none), and the requests
it issues do not depend on what the network answers. -/
theorem C9_propose_result_is_or (env : Env) (n : NodeServices) (c : String) :
    ((ProposeNodes env n c).1 = true ↔
      ∃ i r, n.log.length ≤ i ∧ (ProposeNodes env n c).2.log[i]? = some r ∧
        reportsOk env ((ProposeNodes env n c).2.log.take i) r = true) ∧
    (∀ env2 : Env, (ProposeNodes env2 n c).2.log = (ProposeNodes env n c).2.log) := by
  constructor
  · unfold ProposeNodes
    rw [proposeLoop_ok, proposeLoop_state]
    simp only [Bool.false_eq_true, false_or]
    constructor
    · rintro ⟨i, r, h1, h2⟩
      refine ⟨n.log.length + i, r, Nat.le_add_right _ _, ?_, ?_⟩
      · rw [List.getElem?_append_right (Nat.le_add_right _ _)]
        simpa using h1
      · rw [List.take_append]
        exact h2
    · rintro ⟨i, r, h0, h1, h2⟩
      obtain ⟨j, rfl⟩ := Nat.exists_eq_add_of_le h0
      refine ⟨j, r, ?_, ?_⟩
      · rw [List.getElem?_append_right (Nat.le_add_right _ _)] at h1
        simpa using h1
      · rw [List.take_append] at h2
        exact h2
  · intro env2
    unfold ProposeNodes
    rw [proposeLoop_state, proposeLoop_state]

/-- Scenario D as an instance of C8: the candidate `0xABC` is not in the validator's list
`[0x111, 0x222]`, and the one request sent carries the value `"true"`. -/
theorem C8_witness_scenarioD :
    (∀ e ∈ scenarioD.all, (scenarioD.store e.2).Validators.Pairwise (fun u v => u ≤ v)) ∧
    (ProposeNodes envOk scenarioD "0xABC").2.log =
      [Request.post "10.0.0.1" proposeURI "0xABC" "true"] := by
  have hs : ∀ e ∈ scenarioD.all,
      (scenarioD.store e.2).Validators.Pairwise (fun u v => u ≤ v) := by
    intro e _
    simp only [scenarioD, List.pairwise_cons, List.mem_cons, List.mem_singleton,
      List.not_mem_nil, false_implies, implies_true, List.Pairwise.nil, and_true, forall_eq,
      or_false]
    rw [String.le_iff_toList_le]
    decide
  refine ⟨hs, ?_⟩
  have h := (C8_propose_one_call_per_validator envOk scenarioD "0xABC" hs).1
  rw [h]
  decide

/-! ## The entry node -/

theorem isUp_fix (env : Env) (st : String → Option String)
    (hfix : ∀ log ip, env.getJSON log ip status = st ip) (n : NodeServices) (x : Nodo) :
    (IsUpAndRunning env n x).1 = true ↔ st x.IP = some "ok" := by
  unfold IsUpAndRunning
  simp only [hfix]
  cases h : st x.IP with
  | none => simp
  | some s => simp

theorem firstUpLoop_none (env : Env) (st : String → Option String)
    (hfix : ∀ log ip, env.getJSON log ip status = st ip) :
    ∀ (l : List Nodo) (d : Nodo) (n : NodeServices), (∀ x ∈ l, ¬ eligible st x) →
      (firstUpLoop env l d n).2 = (false, { n with log := n.log ++ probesOf l }) := by
  intro l
  induction l with
  | nil => intro d n _; simp [firstUpLoop, probesOf]
  | cons x rest ih =>
    intro d n h
    unfold firstUpLoop
    have hx := h x (List.mem_cons_self _ _)
    have hrest : ∀ y ∈ rest, ¬ eligible st y := fun y hy => h y (List.mem_cons_of_mem _ hy)
    by_cases hp : x.PrivateFor = ""
    · have hup : (IsUpAndRunning env n x).1 = false := by
        cases hb : (IsUpAndRunning env n x).1 with
        | false => rfl
        | true => exact absurd ⟨hp, (isUp_fix env st hfix n x).mp hb⟩ hx
      simp only [hp, if_true, hup, Bool.false_eq_true, if_false]
      rw [ih x _ hrest]
      simp [IsUpAndRunning, probesOf, List.filter_cons, hp]
    · simp only [hp, if_false]
      rw [ih x _ hrest]
      simp [probesOf, List.filter_cons, hp]

theorem firstUpLoop_some (env : Env) (st : String → Option String)
    (hfix : ∀ log ip, env.getJSON log ip status = st ip) :
    ∀ (pre : List Nodo) (x : Nodo) (post : List Nodo) (d : Nodo) (n : NodeServices),
      (∀ y ∈ pre, ¬ eligible st y) → eligible st x →
      firstUpLoop env (pre ++ x :: post) d n =
        (x, true, { n with log := n.log ++ probesOf (pre ++ [x]) }) := by
  intro pre
  induction pre with
  | nil =>
    intro x post d n _ hx
    have hup : (IsUpAndRunning env n x).1 = true := (isUp_fix env st hfix n x).mpr hx.2
    simp only [List.nil_append, firstUpLoop, hx.1, if_true, hup]
    simp [probesOf, IsUpAndRunning, hx.1]
  | cons y pre ih =>
    intro x post d n h hx
    have hy := h y (List.mem_cons_self _ _)
    have hrest : ∀ z ∈ pre, ¬ eligible st z := fun z hz => h z (List.mem_cons_of_mem _ hz)
    simp only [List.cons_append]
    unfold firstUpLoop
    by_cases hp : y.PrivateFor = ""
    · have hup : (IsUpAndRunning env n y).1 = false := by
        cases hb : (IsUpAndRunning env n y).1 with
        | false => rfl
        | true => exact absurd ⟨hp, (isUp_fix env st hfix n y).mp hb⟩ hy
      simp only [hp, if_true, hup, Bool.false_eq_true, if_false]
      rw [ih x post y _ hrest hx]
      simp [IsUpAndRunning, probesOf, List.filter_cons, hp]
    · simp only [hp, if_false]
      rw [ih x post y _ hrest hx]
      simp [probesOf, List.filter_cons, hp]

/-! ## The visit of one node in closed form -/

theorem nodeInfoObj_frame (env : Env) (o o1 : Nodo) (h : nodeInfoObj env o = some o1) :
    dirPart o1 = dirPart o ∧ o1.Monitor = o.Monitor := by
  unfold nodeInfoObj at h
  split at h
  · exact Option.noConfusion h
  · split at h
    · exact Option.noConfusion h
    · split at h <;> (injection h with h; subst h; exact ⟨rfl, rfl⟩)

theorem peerObj_frame (all : List (String × Nat)) (o o1 : Nodo) (peer : List String)
    (h : peerObj all o peer = some o1) : dirPart o1 = dirPart o ∧ o1.Monitor = o.Monitor := by
  unfold peerObj at h
  split at h
  · split at h <;> (injection h with h; subst h; exact ⟨rfl, rfl⟩)
  · exact Option.noConfusion h

theorem peersObj_frame (all : List (String × Nat)) :
    ∀ (peers : List (List String)) (o o1 : Nodo), peersObj all peers o = some o1 →
      dirPart o1 = dirPart o ∧ o1.Monitor = o.Monitor := by
  intro peers
  induction peers with
  | nil => intro o o1 h; simp only [peersObj, Option.some.injEq] at h; subst h; exact ⟨rfl, rfl⟩
  | cons peer rest ih =>
    intro o o1 h
    unfold peersObj at h
    split at h
    · exact Option.noConfusion h
    · rename_i o2 h2
      have h3 := peerObj_frame all o o2 peer h2
      have h4 := ih o2 o1 h
      exact ⟨h4.1.trans h3.1, h4.2.trans h3.2⟩

theorem validatorsObj_frame :
    ∀ (ms : List (List String)) (o o1 : Nodo), validatorsObj ms o = some o1 →
      dirPart o1 = dirPart o := by
  intro ms
  induction ms with
  | nil => intro o o1 h; simp only [validatorsObj, Option.some.injEq] at h; subst h; rfl
  | cons m rest ih =>
    intro o o1 h
    unfold validatorsObj at h
    split at h
    · exact Option.noConfusion h
    · exact (ih _ o1 h).trans rfl

theorem ibftObj_frame (env : Env) (o o1 : Nodo) (h : ibftObj env o = some o1) :
    dirPart o1 = dirPart o := by
  unfold ibftObj at h
  split at h
  · split at h
    · exact Option.noConfusion h
    · split at h
      · exact Option.noConfusion h
      · split at h
        · exact Option.noConfusion h
        · split at h
          · exact Option.noConfusion h
          · split at h
            · split at h
              · exact Option.noConfusion h
              · rename_i o2 h2
                injection h with h; subst h
                exact (validatorsObj_frame _ _ _ h2).trans rfl
            · injection h with h; subst h; rfl
  · injection h with h; subst h; rfl

theorem mergeObj_frame (env : Env) (all : List (String × Nat)) (txt : String) (o o1 : Nodo)
    (h : mergeObj env all txt o = some o1) : dirPart o1 = dirPart o := by
  unfold mergeObj at h
  split at h
  · exact Option.noConfusion h
  · rename_i o2 h2
    split at h
    · exact Option.noConfusion h
    · rename_i o3 h3
      have a := nodeInfoObj_frame env _ _ h2
      have b := peersObj_frame all _ _ _ h3
      have c := ibftObj_frame env _ _ h
      exact c.trans (b.1.trans a.1)

theorem dirPart_enode {o o1 : Nodo} (h : dirPart o1 = dirPart o) : o1.Enode = o.Enode :=
  by
  have e := congrArg Nodo.Enode h
  simpa [dirPart] using e

theorem nodeInfoVerify_eq (env : Env) (n : NodeServices) (p : Nat) :
    nodeInfoVerify env n p =
      (nodeInfoObj env (n.store p)).map fun o1 =>
        { n with store := Function.update n.store p o1 } := by
  unfold nodeInfoVerify nodeInfoObj
  cases h0 : (env.nodeInfo_reg (n.store p).Monitor)[0]? with
  | none => rfl
  | some m =>
    dsimp only
    cases h1 : m[1]? with
    | none => rfl
    | some id =>
      dsimp only
      by_cases hid : id = (n.store p).Enode
      · simp [hid]
      · simp [hid, NodeServices.modify]

theorem peerStep_eq (n : NodeServices) (p : Nat) (peer : List String) :
    peerStep n p peer =
      (peerObj n.all (n.store p) peer).map fun o1 =>
        { n with
          store := Function.update n.store p o1
          set := peerSet n.all n.isVisited (fun q => (n.store q).Enode) n.set peer } := by
  unfold peerStep peerObj peerSet
  cases h1 : peer[1]? with
  | none => rfl
  | some id =>
    cases h2 : peer[2]? with
    | none => rfl
    | some name =>
      cases h3 : peer[3]? with
      | none => rfl
      | some remote =>
        dsimp only
        simp only [NodeServices.modify]
        cases h4 : mget n.all id with
        | none => simp [Function.update_idem]
        | some aux =>
          have hen : (Function.update n.store p
              { n.store p with Peers := (n.store p).Peers ++ [⟨id, name, remote⟩] } aux).Enode =
              (n.store aux).Enode := by
            by_cases hq : aux = p
            · subst hq; simp
            · simp [Function.update_noteq hq]
          simp only [hen, NodeServices.isVisited, Option.map_some']
          split <;> rfl

theorem peersLoop_eq (p : Nat) :
    ∀ (peers : List (List String)) (n : NodeServices),
      peersLoop p peers n =
        (peersObj n.all peers (n.store p)).map fun o1 =>
          { n with
            store := Function.update n.store p o1
            set := peers.foldl (peerSet n.all n.isVisited fun q => (n.store q).Enode) n.set } := by
  intro peers
  induction peers with
  | nil => intro n; simp [peersLoop, peersObj]
  | cons peer rest ih =>
    intro n
    unfold peersLoop peersObj
    rw [peerStep_eq]
    cases h : peerObj n.all (n.store p) peer with
    | none => rfl
    | some o1 =>
      simp only [Option.map_some']
      rw [ih]
      have hen : (fun q => (Function.update n.store p o1 q).Enode) = fun q => (n.store q).Enode := by
        funext q
        by_cases hq : q = p
        · subst hq
          simp [dirPart_enode (peerObj_frame _ _ _ _ h).1]
        · simp [Function.update_noteq hq]
      simp only [Function.update_same, Function.update_idem, List.foldl_cons, hen]
      rfl

theorem validatorsLoop_eq (p : Nat) :
    ∀ (ms : List (List String)) (n : NodeServices),
      validatorsLoop p ms n =
        (validatorsObj ms (n.store p)).map fun o1 =>
          { n with store := Function.update n.store p o1 } := by
  intro ms
  induction ms with
  | nil => intro n; simp [validatorsLoop, validatorsObj]
  | cons m rest ih =>
    intro n
    unfold validatorsLoop validatorsObj
    cases h : m[1]? with
    | none => rfl
    | some v =>
      simp only
      rw [ih]
      simp [NodeServices.modify, Function.update_idem]

theorem ibftExtraction_eq (env : Env) (n : NodeServices) (p : Nat) :
    ibftExtraction env n p =
      (ibftObj env (n.store p)).map fun o1 =>
        { n with store := Function.update n.store p o1 } := by
  unfold ibftExtraction ibftObj
  by_cases hc : (n.store p).PrivateFor.length = 0 ∧ (n.store p).Coinbase.length = 0
  · simp only [hc, and_self, if_true]
    cases h0 : (env.coinbase (n.store p).Monitor)[0]? with
    | none => rfl
    | some cs =>
      dsimp only
      cases h1 : cs[1]? with
      | none => rfl
      | some cb =>
        dsimp only
        have hn1 : (if cb ≠ (n.store p).Coinbase then
            n.modify p fun nodo => { nodo with Coinbase := cb } else n) =
            { n with store := Function.update n.store p { n.store p with Coinbase := cb } } := by
          by_cases hcb : cb = (n.store p).Coinbase
          · simp [hcb]
          · simp [hcb, NodeServices.modify]
        simp only [hn1, Function.update_same]
        cases h2 : (env.getvalidators (n.store p).Monitor)[0]? with
        | none => rfl
        | some g =>
          dsimp only
          cases h3 : g[1]? with
          | none => rfl
          | some gv =>
            dsimp only
            by_cases hg : gv.length > 0
            · simp only [hg, if_true]
              rw [validatorsLoop_eq]
              simp only [Function.update_same]
              cases h4 : validatorsObj (env.eachvalidator gv)
                  { n.store p with Coinbase := cb } with
              | none => rfl
              | some o2 => simp [NodeServices.modify, Function.update_idem]
            · simp [hg]
  · simp [hc]

theorem nodeVerify_eq (env : Env) (n : NodeServices) (p : Nat) :
    nodeVerify env n p = visitOutcome env n p := by
  unfold nodeVerify visitOutcome
  simp only [IsUpAndRunning, call]
  cases hst : env.getJSON n.log (n.store p).IP status with
  | none => simp [NodeServices.modify]
  | some s =>
    by_cases hs : s = "ok"
    · subst hs
      simp only [decide_True, if_true]
      cases hc : env.call (n.log ++ [Request.get (n.store p).IP status]) (n.store p).IP logsjson with
      | none => simp
      | some txt =>
        simp only [NodeServices.modify]
        rw [nodeInfoVerify_eq]
        simp only [Function.update_same]
        unfold mergeObj
        cases h1 : nodeInfoObj env { n.store p with Monitor := txt } with
        | none => rfl
        | some o1 =>
          simp only [Option.map_some']
          unfold peersVerify
          rw [peersLoop_eq]
          have hm : o1.Monitor = txt := (nodeInfoObj_frame env _ _ h1).2
          simp only [Function.update_same, Function.update_idem, hm]
          cases h2 : peersObj n.all (env.peer_reg txt) o1 with
          | none => rfl
          | some o2 =>
            simp only [Option.map_some']
            rw [ibftExtraction_eq]
            simp only [Function.update_same, Function.update_idem]
            cases h3 : ibftObj env o2 with
            | none => rfl
            | some o3 =>
              have he1 : o1.Enode = (n.store p).Enode :=
                dirPart_enode (nodeInfoObj_frame env _ _ h1).1
              have he2 : o2.Enode = o1.Enode := dirPart_enode (peersObj_frame _ _ _ _ h2).1
              have he3 : o3.Enode = o2.Enode := dirPart_enode (ibftObj_frame env _ _ h3)
              have hen : (fun q => (Function.update n.store p o1 q).Enode) =
                  fun q => (n.store q).Enode := by
                funext q
                by_cases hq : q = p
                · subst hq; simp [he1]
                · simp [Function.update_noteq hq]
              simp only [Option.map_some', Function.update_same, he3, he2, he1, hen,
                List.append_assoc, List.cons_append, List.nil_append]
              rfl
    · simp [hs, NodeServices.modify]

/-! ## The state at the start of the crawl -/

theorem lastWith_mem : ∀ (l : List Nodo) (k : String) (x : Nodo),
    lastWith l k = some x → x ∈ l ∧ x.Enode = k := by
  intro l
  induction l with
  | nil => intro k x h; simp [lastWith] at h
  | cons y rest ih =>
    intro k x h
    unfold lastWith at h
    cases hr : lastWith rest k with
    | some z =>
      rw [hr] at h
      simp only [Option.some.injEq] at h
      subst h
      exact ⟨List.mem_cons_of_mem _ (ih k z hr).1, (ih k z hr).2⟩
    | none =>
      rw [hr] at h
      by_cases hy : y.Enode = k
      · simp only [hy, if_true, Option.some.injEq] at h
        subst h
        exact ⟨List.mem_cons_self _ _, hy⟩
      · simp [hy] at h

theorem lastWith_none_iff : ∀ (l : List Nodo) (k : String),
    lastWith l k = none ↔ k ∉ l.map Nodo.Enode := by
  intro l
  induction l with
  | nil => intro k; simp [lastWith]
  | cons y rest ih =>
    intro k
    unfold lastWith
    cases hr : lastWith rest k with
    | some z =>
      have := (lastWith_mem rest k z hr)
      constructor
      · intro h; exact Option.noConfusion h
      · intro h
        exfalso
        apply h
        rw [List.map_cons]
        exact List.mem_cons_of_mem _ (List.mem_map.mpr ⟨z, this.1, this.2⟩)
    | none =>
      have hk := (ih k).mp hr
      by_cases hy : y.Enode = k
      · simp [hy]
      · simp only [hy, if_false, List.map_cons, List.mem_cons, not_or, true_iff]
        exact ⟨fun e => hy e.symm, hk⟩

theorem getSetsLoop_spec : ∀ (rest : List Nodo) (next : Nat) (store : Nat → Nodo)
    (vis : List (String × Bool)) (all : List (String × Nat)),
    (mkeys all).Nodup → (∀ k, (mget vis k).getD false = false) →
    (∀ k q, mget all k = some q → q < next) →
    (getSetsLoop rest next store vis all).1 = next + rest.length ∧
    (mkeys (getSetsLoop rest next store vis all).2.2.2).Nodup ∧
    (∀ k, (mget (getSetsLoop rest next store vis all).2.2.1 k).getD false = false) ∧
    (∀ q, q < next ∨ next + rest.length ≤ q →
      (getSetsLoop rest next store vis all).2.1 q = store q) ∧
    (∀ k, k ∈ mkeys (getSetsLoop rest next store vis all).2.2.2 ↔
      k ∈ mkeys all ∨ k ∈ rest.map Nodo.Enode) ∧
    (∀ k q, mget (getSetsLoop rest next store vis all).2.2.2 k = some q →
      (q < next ∧ mget all k = some q ∧ lastWith rest k = none) ∨
      (next ≤ q ∧ q < next + rest.length ∧
        lastWith rest k = some ((getSetsLoop rest next store vis all).2.1 q))) := by
  intro rest
  induction rest with
  | nil =>
    intro next store vis all hn hv hp
    refine ⟨rfl, hn, hv, fun _ _ => rfl, ?_, ?_⟩
    · intro k
      simp [getSetsLoop]
    · intro k q h
      exact Or.inl ⟨hp k q h, h, rfl⟩
  | cons x rest ih =>
    intro next store vis all hn hv hp
    have hv2 : ∀ k, (mget (mput vis x.Enode false) k).getD false = false := by
      intro k
      by_cases hk : k = x.Enode
      · subst hk; rw [mget_mput_same]; rfl
      · rw [mget_mput_other _ _ _ _ hk]; exact hv k
    have hp2 : ∀ k q, mget (mput all x.Enode next) k = some q → q < next + 1 := by
      intro k q h
      by_cases hk : k = x.Enode
      · subst hk
        rw [mget_mput_same] at h
        injection h with h
        omega
      · rw [mget_mput_other _ _ _ _ hk] at h
        have := hp k q h
        omega
    obtain ⟨h1, h2, h3, h4, h5, h6⟩ := ih (next + 1) (Function.update store next x)
      (mput vis x.Enode false) (mput all x.Enode next) (nodup_mkeys_mput _ _ _ hn) hv2 hp2
    unfold getSetsLoop
    refine ⟨by rw [h1, List.length_cons]; omega, h2, h3, ?_, ?_, ?_⟩
    · intro q hq
      rw [h4 q (by rw [List.length_cons] at hq; omega)]
      apply Function.update_noteq
      rw [List.length_cons] at hq
      omega
    · intro k
      rw [h5 k, mem_mkeys_mput, List.map_cons, List.mem_cons]
      constructor
      · rintro ((h | h) | h)
        · exact Or.inr (Or.inl h)
        · exact Or.inl h
        · exact Or.inr (Or.inr h)
      · rintro (h | h | h)
        · exact Or.inl (Or.inr h)
        · exact Or.inl (Or.inl h)
        · exact Or.inr h
    · intro k q h
      rcases h6 k q h with ⟨hq, hm, hl⟩ | ⟨hq1, hq2, hl⟩
      · by_cases hk : k = x.Enode
        · subst hk
          rw [mget_mput_same] at hm
          injection hm with hm
          subst hm
          right
          refine ⟨Nat.le_refl _, by rw [List.length_cons]; omega, ?_⟩
          rw [h4 next (Or.inl (Nat.lt_succ_self _)), Function.update_same]
          simp [lastWith, hl]
        · rw [mget_mput_other _ _ _ _ hk] at hm
          left
          refine ⟨hp k q hm, hm, ?_⟩
          have hk2 : ¬ x.Enode = k := fun e => hk e.symm
          simp [lastWith, hl, hk2]
      · right
        refine ⟨by omega, by rw [List.length_cons]; omega, ?_⟩
        simp [lastWith, hl]

/-! ## The frontier update of `peersVerify` -/

theorem peerSet_mem (all : List (String × Nat)) (vis : String → Bool) (en : Nat → String)
    (set : List (String × Nat)) (peer : List String) (e : String × Nat)
    (h : e ∈ peerSet all vis en set peer) :
    e ∈ set ∨ (vis e.1 = false ∧ e.1 = en e.2 ∧ ∃ id, peer[1]? = some id ∧ mget all id = some e.2) := by
  unfold peerSet at h
  split at h
  · rename_i id hid
    split at h
    · rename_i aux haux
      by_cases hv : vis (en aux) = true
      · simp only [hv, Bool.not_true, Bool.false_eq_true, if_false] at h
        exact Or.inl h
      · have hv2 : vis (en aux) = false := by simpa using hv
        simp only [hv2, Bool.not_false, if_true] at h
        rcases mem_mput _ _ _ _ h with h1 | h1
        · right
          subst h1
          exact ⟨hv2, rfl, id, hid, haux⟩
        · exact Or.inl h1
    · exact Or.inl h
  · exact Or.inl h

theorem peerSet_keys_mono (all : List (String × Nat)) (vis : String → Bool) (en : Nat → String)
    (set : List (String × Nat)) (peer : List String) (k : String) (h : k ∈ mkeys set) :
    k ∈ mkeys (peerSet all vis en set peer) := by
  unfold peerSet
  split
  · split
    · split
      · exact (mem_mkeys_mput _ _ _ _).mpr (Or.inr h)
      · exact h
    · exact h
  · exact h

theorem foldl_peerSet_mem (all : List (String × Nat)) (vis : String → Bool) (en : Nat → String) :
    ∀ (peers : List (List String)) (set : List (String × Nat)) (e : String × Nat),
      e ∈ peers.foldl (peerSet all vis en) set →
      e ∈ set ∨ (vis e.1 = false ∧ e.1 = en e.2 ∧
        ∃ peer ∈ peers, ∃ id, peer[1]? = some id ∧ mget all id = some e.2) := by
  intro peers
  induction peers with
  | nil => intro set e h; exact Or.inl h
  | cons peer rest ih =>
    intro set e h
    rw [List.foldl_cons] at h
    rcases ih _ e h with h1 | ⟨h1, h2, p2, hp2, h3⟩
    · rcases peerSet_mem all vis en set peer e h1 with h4 | ⟨h4, h5, h6⟩
      · exact Or.inl h4
      · exact Or.inr ⟨h4, h5, peer, List.mem_cons_self _ _, h6⟩
    · exact Or.inr ⟨h1, h2, p2, List.mem_cons_of_mem _ hp2, h3⟩

theorem foldl_peerSet_keys_mono (all : List (String × Nat)) (vis : String → Bool)
    (en : Nat → String) :
    ∀ (peers : List (List String)) (set : List (String × Nat)) (k : String),
      k ∈ mkeys set → k ∈ mkeys (peers.foldl (peerSet all vis en) set) := by
  intro peers
  induction peers with
  | nil => intro set k h; exact h
  | cons peer rest ih =>
    intro set k h
    rw [List.foldl_cons]
    exact ih _ k (peerSet_keys_mono all vis en set peer k h)

theorem foldl_peerSet_add (all : List (String × Nat)) (vis : String → Bool) (en : Nat → String) :
    ∀ (peers : List (List String)) (set : List (String × Nat)) (peer : List String)
      (id : String) (aux : Nat),
      peer ∈ peers → peer[1]? = some id → mget all id = some aux → vis (en aux) = false →
      en aux ∈ mkeys (peers.foldl (peerSet all vis en) set) := by
  intro peers
  induction peers with
  | nil => intro set peer id aux h; simp at h
  | cons p1 rest ih =>
    intro set peer id aux h hid haux hv
    rw [List.foldl_cons]
    rcases List.mem_cons.mp h with h1 | h1
    · subst h1
      apply foldl_peerSet_keys_mono
      unfold peerSet
      simp only [hid, haux, hv, Bool.not_false, if_true]
      exact (mem_mkeys_mput _ _ _ _).mpr (Or.inl rfl)
    · exact ih _ peer id aux h1 hid haux hv

/-! ## What every visit does -/

theorem visitedAfter_eq (n : NodeServices) (k k2 : String) :
    visitedAfter n k k2 = if k2 = k then true else n.isVisited k2 := by
  unfold visitedAfter NodeServices.isVisited
  by_cases h : k2 = k
  · subst h; simp [mget_mput_same]
  · simp [h, mget_mput_other _ _ _ _ h]

theorem nodeVerify_summary (env : Env) (n n1 : NodeServices) (p : Nat)
    (h : nodeVerify env n p = some n1) :
    n1.visited = mput n.visited (n.store p).Enode true ∧
    n1.nodos = n.nodos ∧ n1.next = n.next ∧
    (∀ q, q ≠ p → n1.store q = n.store q) ∧
    dirPart (n1.store p) = dirPart (n.store p) ∧
    (n1.all = n.all ∨ n1.all = mput n.all (n.store p).Enode p) ∧
    (∃ peers, n1.set = List.foldl
      (peerSet n.all (visitedAfter n (n.store p).Enode) fun q => (n.store q).Enode)
      (mdel n.set (n.store p).Enode) peers) := by
  rw [nodeVerify_eq] at h
  unfold visitOutcome at h
  split at h
  · split at h
    · injection h with h
      subst h
      exact ⟨rfl, rfl, rfl, fun _ _ => rfl, rfl, Or.inl rfl, [], rfl⟩
    · rename_i txt _
      split at h
      · exact Option.noConfusion h
      · rename_i o1 ho1
        injection h with h
        subst h
        refine ⟨rfl, rfl, rfl, ?_, ?_, Or.inr rfl, env.peer_reg txt, rfl⟩
        · intro q hq
          exact Function.update_noteq hq _ _
        · simp only [Function.update_same]
          exact mergeObj_frame env _ _ _ _ ho1
  · injection h with h
    subst h
    refine ⟨rfl, rfl, rfl, ?_, ?_, Or.inl rfl, [], rfl⟩
    · intro q hq
      exact Function.update_noteq hq _ _
    · simp only [Function.update_same]
      rfl

theorem nodeVerify_isVisited (env : Env) (n n1 : NodeServices) (p : Nat)
    (h : nodeVerify env n p = some n1) (k : String) :
    n1.isVisited k = if k = (n.store p).Enode then true else n.isVisited k := by
  have hv := (nodeVerify_summary env n n1 p h).1
  rw [← visitedAfter_eq]
  unfold NodeServices.isVisited visitedAfter
  rw [hv]

/-! ## The invariant of the crawl loop -/

theorem front_enode {s0 : NodeServices} {pE : Nat} (hS : Start s0 pE) {k : String} {q : Nat}
    (h : front s0 pE k = some q) : (s0.store q).Enode = k := by
  unfold front at h
  by_cases hk : k = (s0.store pE).Enode
  · simp only [hk, if_true, Option.some.injEq] at h
    subst h
    exact hk.symm
  · simp only [hk, if_false] at h
    exact (hS.ptr k q h).1

theorem front_inj {s0 : NodeServices} {pE : Nat} (hS : Start s0 pE) {k k2 : String} {q : Nat}
    (h1 : front s0 pE k = some q) (h2 : front s0 pE k2 = some q) : k = k2 :=
  (front_enode hS h1).symm.trans (front_enode hS h2)

theorem front_mem_keys {s0 : NodeServices} {pE : Nat} (hS : Start s0 pE) {k : String} {q : Nat}
    (h : front s0 pE k = some q) : k ∈ mkeys s0.all := by
  unfold front at h
  by_cases hk : k = (s0.store pE).Enode
  · rw [hk]; exact hS.entry
  · simp only [hk, if_false] at h
    exact mem_mkeys_of_mget _ _ _ h

theorem inv_init {s0 : NodeServices} {pE : Nat} (hS : Start s0 pE) : Inv s0 pE s0 where
  keys := rfl
  dir := fun _ => rfl
  fr := by
    intro e he
    rw [hS.frontier, List.mem_singleton] at he
    subst he
    exact ⟨hS.fresh _, by simp [front]⟩
  untouched := fun _ _ => rfl
  allp := fun _ => Or.inl rfl
  vkeys := by
    intro k hk
    rw [hS.fresh k] at hk
    exact Bool.noConfusion hk
  entry := Or.inr hS.frontier

theorem inv_enode {s0 s : NodeServices} {pE : Nat} (hS : Start s0 pE) (hI : Inv s0 pE s)
    {e : String × Nat} (he : e ∈ s.set) : (s.store e.2).Enode = e.1 :=
  (dirPart_enode (hI.dir e.2)).trans (front_enode hS (hI.fr e he).2)

theorem inv_step {env : Env} {s0 s s1 : NodeServices} {pE : Nat} (hS : Start s0 pE)
    (hI : Inv s0 pE s) {e : String × Nat} (he : e ∈ s.set)
    (h : nodeVerify env s e.2 = some s1) : Inv s0 pE s1 := by
  obtain ⟨_, _, _, hst, hdp, hall, peers, hset⟩ := nodeVerify_summary env s s1 e.2 h
  have hfr := hI.fr e he
  have hen : (s.store e.2).Enode = e.1 := inv_enode hS hI he
  have hvis : ∀ k, s1.isVisited k = if k = e.1 then true else s.isVisited k := by
    intro k
    rw [nodeVerify_isVisited env s s1 e.2 h k, hen]
  have hmono : ∀ k, s.isVisited k = true → s1.isVisited k = true := by
    intro k hk
    rw [hvis k]
    by_cases hke : k = e.1
    · simp [hke]
    · simp [hke, hk]
  have hself : s1.isVisited e.1 = true := by rw [hvis e.1]; simp
  have hek : e.1 ∈ mkeys s0.all := front_mem_keys hS hfr.2
  rw [hen] at hall hset
  have hentry1 : s1.isVisited (s0.store pE).Enode = true := by
    rcases hI.entry with h1 | h1
    · exact hmono _ h1
    · rw [h1, List.mem_singleton] at he
      rw [he] at hself
      exact hself
  refine ⟨?_, ?_, ?_, ?_, ?_, ?_, Or.inl hentry1⟩
  · rcases hall with h1 | h1
    · rw [h1]; exact hI.keys
    · rw [h1, mkeys_mput_of_mem _ _ _ (hI.keys ▸ hek)]; exact hI.keys
  · intro q
    by_cases hq : q = e.2
    · subst hq; exact hdp.trans (hI.dir _)
    · rw [hst q hq]; exact hI.dir q
  · intro e2 he2
    rw [hset] at he2
    rcases foldl_peerSet_mem _ _ _ peers _ e2 he2 with h1 | ⟨h1, h2, peer, _, id, _, h3⟩
    · obtain ⟨h4, h5⟩ := (mem_mdel _ _ _).mp h1
      have := hI.fr e2 h4
      refine ⟨?_, this.2⟩
      rw [hvis e2.1]
      simp [h5, this.1]
    · rw [visitedAfter_eq] at h1
      have hne : e2.1 ≠ e.1 := by
        intro e3
        simp [e3] at h1
      simp only [hne, if_false] at h1
      refine ⟨by rw [hvis e2.1]; simp [hne, h1], ?_⟩
      have hk0 : e2.1 ≠ (s0.store pE).Enode := by
        intro e3
        rcases hI.entry with h5 | h5
        · rw [← e3, h1] at h5
          exact Bool.noConfusion h5
        · rw [h5, List.mem_singleton] at he
          apply hne
          rw [e3, he]
      rcases hI.allp id with h4 | ⟨h4, h5⟩
      · rw [h3] at h4
        have h6 := (hS.ptr id e2.2 h4.symm).1
        have h7 : e2.1 = id := by
          rw [h2]
          exact (dirPart_enode (hI.dir e2.2)).trans h6
        unfold front
        simp only [hk0, if_false]
        rw [h7]
        exact h4.symm
      · rw [h3] at h5
        have h6 := front_enode hS h5.symm
        have h7 : e2.1 = id := by
          rw [h2]
          exact (dirPart_enode (hI.dir e2.2)).trans h6
        rw [h7, h4] at h1
        exact Bool.noConfusion h1
  · intro q hq
    have hqe : q ≠ e.2 := by
      intro e3
      exact hq e.1 hself (e3 ▸ hfr.2)
    rw [hst q hqe]
    exact hI.untouched q (fun k hk => hq k (hmono k hk))
  · intro k
    by_cases hk : k = e.1
    · subst hk
      rcases hall with h1 | h1
      · rw [h1]
        rcases hI.allp e.1 with h2 | h2
        · exact Or.inl h2
        · rw [hfr.1] at h2
          exact Bool.noConfusion h2.1
      · right
        refine ⟨hself, ?_⟩
        rw [h1, mget_mput_same, hfr.2]
    · have hget : mget s1.all k = mget s.all k := by
        rcases hall with h1 | h1
        · rw [h1]
        · rw [h1, mget_mput_other _ _ _ _ hk]
      rw [hget]
      rcases hI.allp k with h2 | h2
      · exact Or.inl h2
      · exact Or.inr ⟨hmono k h2.1, h2.2⟩
  · intro k hk
    rw [hvis k] at hk
    by_cases hke : k = e.1
    · rw [hke]; exact hek
    · simp only [hke, if_false] at hk
      exact hI.vkeys k hk

/-! ## Runs of the crawl loop -/

theorem pick_none {α : Type} (l : List α) (i : Nat) (h : l[i % l.length]? = none) : l = [] := by
  cases l with
  | nil => rfl
  | cons a l =>
    exfalso
    have hlt : i % (a :: l).length < (a :: l).length :=
      Nat.mod_lt _ (by simp)
    have := List.getElem?_eq_none_iff.mp h
    omega

theorem visits_inv {env : Env} {s0 : NodeServices} {pE : Nat} (hS : Start s0 pE) :
    ∀ (t : Nat) (order : Nat → Nat) (s s1 : NodeServices), Inv s0 pE s →
      visits env t order s = some s1 →
      Inv s0 pE s1 ∧ (∀ k, s.isVisited k = true → s1.isVisited k = true) := by
  intro t
  induction t with
  | zero =>
    intro order s s1 hI h
    simp only [visits, Option.some.injEq] at h
    subst h
    exact ⟨hI, fun _ hk => hk⟩
  | succ t ih =>
    intro order s s1 hI h
    unfold visits at h
    split at h
    · injection h with h
      subst h
      exact ⟨hI, fun _ hk => hk⟩
    · rename_i k aux hpick
      have he := List.getElem?_mem hpick
      split at h
      · exact Option.noConfusion h
      · rename_i s2 hv
        have hI2 := inv_step hS hI he hv
        obtain ⟨h1, h2⟩ := ih _ s2 s1 hI2 h
        refine ⟨h1, fun k2 hk => h2 k2 ?_⟩
        rw [nodeVerify_isVisited env s s2 aux hv k2]
        split
        · rfl
        · exact hk

theorem visitSeq_spec (env : Env) {s0 : NodeServices} {pE : Nat} (hS : Start s0 pE) :
    ∀ (t : Nat) (order : Nat → Nat) (s : NodeServices), Inv s0 pE s →
      (visitSeq env t order s).Nodup ∧
      (∀ k ∈ visitSeq env t order s, s.isVisited k = false ∧ k ∈ mkeys s0.all) ∧
      (∀ s1, visits env t order s = some s1 →
        (∀ k ∈ visitSeq env t order s, s1.isVisited k = true) ∧
        (s1.set ≠ [] → (visitSeq env t order s).length = t)) := by
  intro t
  induction t with
  | zero =>
    intro order s hI
    simp [visitSeq]
  | succ t ih =>
    intro order s hI
    unfold visitSeq visits
    cases hpick : s.set[order 0 % s.set.length]? with
    | none =>
      simp only [List.nodup_nil, List.not_mem_nil, false_implies, implies_true,
        Option.some.injEq, true_and]
      intro s1 h1 h2
      subst h1
      exact absurd (pick_none _ _ hpick) h2
    | some e =>
      obtain ⟨k, aux⟩ := e
      have he := List.getElem?_mem hpick
      have hen : (s.store aux).Enode = k := inv_enode hS hI he
      have hfr := hI.fr _ he
      simp only [hen]
      cases hv : nodeVerify env s aux with
      | none =>
        simp only [List.nodup_cons, List.not_mem_nil, not_false_eq_true, List.nodup_nil,
          and_self, List.mem_singleton, forall_eq, false_implies, implies_true, and_true,
          true_and]
        exact ⟨⟨hfr.1, front_mem_keys hS hfr.2⟩, fun s1 h => Option.noConfusion h⟩
      | some s2 =>
        have hI2 := inv_step hS hI he hv
        obtain ⟨h1, h2, h3⟩ := ih (fun i => order (i + 1)) s2 hI2
        have hvis : ∀ k2, s2.isVisited k2 = if k2 = k then true else s.isVisited k2 := by
          intro k2
          rw [nodeVerify_isVisited env s s2 aux hv k2, hen]
        have hk2 : s2.isVisited k = true := by rw [hvis k]; simp
        simp only
        refine ⟨?_, ?_, ?_⟩
        · rw [List.nodup_cons]
          refine ⟨?_, h1⟩
          intro hmem
          have := (h2 k hmem).1
          rw [hk2] at this
          exact Bool.noConfusion this
        · intro k2 hk
          rcases List.mem_cons.mp hk with h4 | h4
          · subst h4
            exact ⟨hfr.1, front_mem_keys hS hfr.2⟩
          · have h5 := h2 k2 h4
            refine ⟨?_, h5.2⟩
            have h6 := h5.1
            rw [hvis k2] at h6
            by_cases hkk : k2 = k
            · simp [hkk] at h6
            · simpa [hkk] using h6
        · intro s1 hs1
          obtain ⟨h4, h5⟩ := h3 s1 hs1
          refine ⟨?_, ?_⟩
          · intro k2 hk
            rcases List.mem_cons.mp hk with h6 | h6
            · subst h6
              exact (visits_inv hS t _ s2 s1 hI2 hs1).2 _ hk2
            · exact h4 k2 h6
          · intro hne
            rw [List.length_cons, h5 hne]

theorem visits_frontier_empty {env : Env} {s0 : NodeServices} {pE : Nat} (hS : Start s0 pE)
    (t : Nat) (order : Nat → Nat) (s1 : NodeServices)
    (h : visits env t order s0 = some s1) (ht : (mkeys s0.all).length ≤ t) : s1.set = [] := by
  by_contra hne
  obtain ⟨h1, h2, h3⟩ := visitSeq_spec env hS t order s0 (inv_init hS)
  obtain ⟨h4, h5⟩ := h3 s1 h
  have hlen := h5 hne
  have hI1 := (visits_inv hS t order s0 s1 (inv_init hS) h).1
  obtain ⟨e, he⟩ := List.exists_mem_of_ne_nil _ hne
  have hfr := hI1.fr e he
  have hnd : (e.1 :: visitSeq env t order s0).Nodup := by
    rw [List.nodup_cons]
    refine ⟨?_, h1⟩
    intro hmem
    have := h4 e.1 hmem
    rw [hfr.1] at this
    exact Bool.noConfusion this
  have hsub : (e.1 :: visitSeq env t order s0) ⊆ mkeys s0.all := by
    intro k hk
    rcases List.mem_cons.mp hk with h6 | h6
    · rw [h6]; exact front_mem_keys hS hfr.2
    · exact (h2 k h6).2
  have := (List.Nodup.subperm hnd hsub).length_le
  rw [List.length_cons, hlen] at this
  omega

/-! ## Entering the crawl loop -/

theorem firstUpLoop_frame (env : Env) :
    ∀ (l : List Nodo) (d : Nodo) (n : NodeServices),
      (firstUpLoop env l d n).2.2 = { n with log := (firstUpLoop env l d n).2.2.log } ∧
      ((firstUpLoop env l d n).2.1 = true → (firstUpLoop env l d n).1 ∈ l) := by
  intro l
  induction l with
  | nil => intro d n; simp [firstUpLoop]
  | cons x rest ih =>
    intro d n
    unfold firstUpLoop
    by_cases hp : x.PrivateFor = ""
    · simp only [hp, if_true]
      by_cases hup : (IsUpAndRunning env n x).1 = true
      · simp only [hup, if_true, List.mem_cons, true_or, implies_true, and_true]
        rfl
      · simp only [hup, Bool.false_eq_true, if_false]
        obtain ⟨h1, h2⟩ := ih x (IsUpAndRunning env n x).2
        refine ⟨?_, fun h => List.mem_cons_of_mem _ (h2 h)⟩
        rw [h1]
        rfl
    · simp only [hp, if_false]
      obtain ⟨h1, h2⟩ := ih x n
      exact ⟨h1, fun h => List.mem_cons_of_mem _ (h2 h)⟩

theorem getFirst_frame (env : Env) (n : NodeServices) :
    (GetFirstValidatorUp env n).2.2 = { n with log := (GetFirstValidatorUp env n).2.2.log } ∧
    ((GetFirstValidatorUp env n).2.1 = none → (GetFirstValidatorUp env n).1 ∈ n.nodos) := by
  unfold GetFirstValidatorUp
  obtain ⟨h1, h2⟩ := firstUpLoop_frame env n.nodos default n
  refine ⟨h1, ?_⟩
  intro h
  apply h2
  simp only at h
  by_cases hb : (firstUpLoop env n.nodos default n).2.1 = true
  · exact hb
  · simp [hb] at h

theorem getSets_spec (n : NodeServices) :
    (getSets n).nodos = n.nodos ∧ (getSets n).log = n.log ∧ (getSets n).set = n.set ∧
    (getSets n).next = n.next + n.nodos.length ∧
    (mkeys (getSets n).all).Nodup ∧
    (∀ k, (getSets n).isVisited k = false) ∧
    (∀ k, k ∈ mkeys (getSets n).all ↔ k ∈ n.nodos.map Nodo.Enode) ∧
    (∀ k q, mget (getSets n).all k = some q →
      q < (getSets n).next ∧ lastWith n.nodos k = some ((getSets n).store q)) := by
  obtain ⟨h1, h2, h3, _, h5, h6⟩ := getSetsLoop_spec n.nodos n.next n.store [] []
    (by simp [mkeys]) (by intro k; simp [mget]) (by intro k q h; simp [mget] at h)
  refine ⟨rfl, rfl, rfl, h1, h2, h3, ?_, ?_⟩
  · intro k
    have := h5 k
    simpa [mkeys, getSets] using this
  · intro k q h
    rcases h6 k q h with ⟨_, hm, _⟩ | ⟨_, hq, hl⟩
    · simp [mget] at hm
    · refine ⟨?_, hl⟩
      show q < (getSetsLoop n.nodos n.next n.store [] []).1
      rw [h1]
      exact hq

theorem crawlStart_err (env : Env) (n : NodeServices) :
    (crawlStart env n).2 = (GetFirstValidatorUp env (getSets n)).2.1 := by
  unfold crawlStart
  simp only
  split <;> rfl

theorem crawlStart_ok (env : Env) (n : NodeServices) (h : (crawlStart env n).2 = none) :
    Start (crawlStart env n).1 (getSets n).next ∧
    (crawlStart env n).1.store (getSets n).next = (GetFirstValidatorUp env (getSets n)).1 ∧
    (GetFirstValidatorUp env (getSets n)).1 ∈ n.nodos ∧
    (crawlStart env n).1.all = (getSets n).all ∧
    (∀ k, k ∈ mkeys (crawlStart env n).1.all ↔ k ∈ n.nodos.map Nodo.Enode) ∧
    (∀ k q, mget (crawlStart env n).1.all k = some q →
      lastWith n.nodos k = some ((crawlStart env n).1.store q)) ∧
    (crawlStart env n).1.log = (GetFirstValidatorUp env (getSets n)).2.2.log := by
  rw [crawlStart_err] at h
  obtain ⟨g1, g2, g3, g4, g5, g6, g7, g8⟩ := getSets_spec n
  obtain ⟨f1, f2⟩ := getFirst_frame env (getSets n)
  have hmem : (GetFirstValidatorUp env (getSets n)).1 ∈ n.nodos := g1 ▸ f2 h
  have hs0 : (crawlStart env n).1 =
      { getSets n with
        store := Function.update (getSets n).store (getSets n).next
          (GetFirstValidatorUp env (getSets n)).1
        next := (getSets n).next + 1
        set := [((GetFirstValidatorUp env (getSets n)).1.Enode, (getSets n).next)]
        log := (GetFirstValidatorUp env (getSets n)).2.2.log } := by
    unfold crawlStart
    simp only [h, if_true]
    rw [f1]
    rfl
  rw [hs0]
  have hstore : ∀ k q, mget (getSets n).all k = some q →
      Function.update (getSets n).store (getSets n).next
          (GetFirstValidatorUp env (getSets n)).1 q = (getSets n).store q := by
    intro k q hq
    apply Function.update_noteq
    have := (g8 k q hq).1
    omega
  refine ⟨⟨g5, ?_, ?_, g6, ?_⟩, ?_, hmem, rfl, g7, ?_, rfl⟩
  · intro k q hq
    simp only at hq ⊢
    rw [hstore k q hq]
    have h8 := g8 k q hq
    exact ⟨(lastWith_mem _ _ _ h8.2).2, by omega⟩
  · simp only [Function.update_same]
    exact (g7 _).mpr (List.mem_map.mpr ⟨_, hmem, rfl⟩)
  · simp only [Function.update_same]
  · simp only [Function.update_same]
  · intro k q hq
    simp only at hq ⊢
    rw [hstore k q hq]
    exact (g8 k q hq).2

theorem keys_length_le (n : NodeServices) :
    (mkeys (getSets n).all).length ≤ n.nodos.length := by
  obtain ⟨_, _, _, _, g5, _, g7, _⟩ := getSets_spec n
  have hsub : mkeys (getSets n).all ⊆ n.nodos.map Nodo.Enode := fun k hk => (g7 k).mp hk
  have := (List.Nodup.subperm g5 hsub).length_le
  simpa using this

/-! ## Monotonicity, prefixes of a run, and the report -/

theorem visits_mono (env : Env) :
    ∀ (t : Nat) (order : Nat → Nat) (s s1 : NodeServices),
      visits env t order s = some s1 → ∀ k, s.isVisited k = true → s1.isVisited k = true := by
  intro t
  induction t with
  | zero =>
    intro order s s1 h k hk
    simp only [visits, Option.some.injEq] at h
    subst h
    exact hk
  | succ t ih =>
    intro order s s1 h k hk
    unfold visits at h
    split at h
    · injection h with h
      subst h
      exact hk
    · rename_i k2 aux hpick
      split at h
      · exact Option.noConfusion h
      · rename_i s2 hv
        apply ih _ s2 s1 h k
        rw [nodeVerify_isVisited env s s2 aux hv k]
        split
        · rfl
        · exact hk

theorem visits_of_empty (env : Env) (t : Nat) (order : Nat → Nat) (s : NodeServices)
    (h : s.set = []) : visits env t order s = some s := by
  cases t with
  | zero => rfl
  | succ t => unfold visits; simp [h]

theorem visitSeq_of_empty (env : Env) (t : Nat) (order : Nat → Nat) (s : NodeServices)
    (h : s.set = []) : visitSeq env t order s = [] := by
  cases t with
  | zero => rfl
  | succ t => unfold visitSeq; simp [h]

theorem visits_succ (env : Env) (t : Nat) (order : Nat → Nat) (s : NodeServices) :
    visits env (t + 1) order s =
      match s.set[order 0 % s.set.length]? with
      | none => some s
      | some e =>
        match nodeVerify env s e.2 with
        | none => none
        | some n1 => visits env t (fun i => order (i + 1)) n1 := by
  rw [visits]
  cases s.set[order 0 % s.set.length]? with
  | none => rfl
  | some e => rfl

theorem visits_add (env : Env) :
    ∀ (t d : Nat) (order : Nat → Nat) (s : NodeServices),
      visits env (t + d) order s =
        (visits env t order s).bind (visits env d fun i => order (i + t)) := by
  intro t
  induction t with
  | zero =>
    intro d order s
    simp [visits]
  | succ t ih =>
    intro d order s
    have hadd : t + 1 + d = (t + d) + 1 := by omega
    rw [hadd, visits_succ, visits_succ]
    cases hpick : s.set[order 0 % s.set.length]? with
    | none =>
      simp only [Option.some_bind]
      have hnil := pick_none _ _ hpick
      exact (visits_of_empty env d _ s hnil).symm
    | some e =>
      simp only
      cases hv : nodeVerify env s e.2 with
      | none => rfl
      | some s2 =>
        simp only
        rw [ih]
        rfl

theorem reportStep_frame (fecha : Nat) (acc : NodeServices × List Nodo) (e : String × Nat) :
    (reportStep fecha acc e).1.visited = acc.1.visited ∧
    (reportStep fecha acc e).1.set = acc.1.set ∧
    (reportStep fecha acc e).1.all = acc.1.all ∧
    (reportStep fecha acc e).1.log = acc.1.log ∧
    (reportStep fecha acc e).1.nodos = acc.1.nodos := by
  unfold reportStep
  simp only [NodeServices.modify]
  split <;> split <;> exact ⟨rfl, rfl, rfl, rfl, rfl⟩

theorem report_foldl_frame (fecha : Nat) :
    ∀ (l : List (String × Nat)) (acc : NodeServices × List Nodo),
      (l.foldl (reportStep fecha) acc).1.visited = acc.1.visited ∧
      (l.foldl (reportStep fecha) acc).1.set = acc.1.set ∧
      (l.foldl (reportStep fecha) acc).1.all = acc.1.all ∧
      (l.foldl (reportStep fecha) acc).1.log = acc.1.log ∧
      (l.foldl (reportStep fecha) acc).1.nodos = acc.1.nodos := by
  intro l
  induction l with
  | nil => intro acc; exact ⟨rfl, rfl, rfl, rfl, rfl⟩
  | cons e rest ih =>
    intro acc
    rw [List.foldl_cons]
    obtain ⟨h1, h2, h3, h4, h5⟩ := ih (reportStep fecha acc e)
    obtain ⟨g1, g2, g3, g4, g5⟩ := reportStep_frame fecha acc e
    exact ⟨h1.trans g1, h2.trans g2, h3.trans g3, h4.trans g4, h5.trans g5⟩

theorem report_frame (fecha : Nat) (n : NodeServices) :
    (report fecha n).1.visited = n.visited ∧ (report fecha n).1.set = n.set ∧
    (report fecha n).1.all = n.all ∧ (report fecha n).1.log = n.log ∧
    (report fecha n).1.nodos = n.nodos :=
  report_foldl_frame fecha n.all (n, [])

theorem report_isVisited (fecha : Nat) (n : NodeServices) (k : String) :
    (report fecha n).1.isVisited k = n.isVisited k := by
  unfold NodeServices.isVisited
  rw [(report_frame fecha n).1]

/-- What a finished run of `CheckPermission` is made of. -/
theorem checkPermission_done (env : Env) (order : Nat → Nat) (fuel fecha : Nat)
    (n : NodeServices) (out : List Nodo) (s : NodeServices)
    (h : CheckPermission env order fuel fecha n = Run.done (out, s)) :
    ∃ s1, out = (report fecha s1).2 ∧ s = (report fecha s1).1 ∧
      (((crawlStart env n).2 = none ∧ visits env fuel order (crawlStart env n).1 = some s1 ∧
          s1.set = []) ∨
       ((crawlStart env n).2 ≠ none ∧ s1 = (crawlStart env n).1)) := by
  unfold CheckPermission at h
  simp only at h
  by_cases herr : (crawlStart env n).2 = none
  · simp only [herr, if_true] at h
    unfold crawl at h
    cases hv : visits env fuel order (crawlStart env n).1 with
    | none => simp [hv] at h
    | some s1 =>
      simp only [hv] at h
      by_cases hempty : s1.set.isEmpty = true
      · simp only [hempty, if_true, Run.done.injEq, Prod.mk.injEq] at h
        exact ⟨s1, h.1.symm, h.2.symm, Or.inl ⟨herr, rfl, List.isEmpty_iff.mp hempty⟩⟩
      · simp [hempty] at h
  · simp only [herr, if_false, Run.done.injEq, Prod.mk.injEq] at h
    exact ⟨(crawlStart env n).1, h.1.symm, h.2.symm, Or.inr ⟨herr, rfl⟩⟩

theorem crawlStart_fail_set (env : Env) (n : NodeServices) (h : (crawlStart env n).2 ≠ none) :
    (crawlStart env n).1.set = [] ∧ (∀ k, (crawlStart env n).1.isVisited k = false) ∧
    (crawlStart env n).1.log = (GetFirstValidatorUp env (getSets n)).2.2.log := by
  have herr := crawlStart_err env n
  rw [herr] at h
  obtain ⟨f1, _⟩ := getFirst_frame env (getSets n)
  obtain ⟨_, _, _, _, _, g6, _, _⟩ := getSets_spec n
  have hs0 : (crawlStart env n).1 =
      { (GetFirstValidatorUp env (getSets n)).2.2 with set := [] } := by
    unfold crawlStart
    simp only [h, if_false]
  rw [hs0]
  refine ⟨rfl, ?_, rfl⟩
  intro k
  have : ({ (GetFirstValidatorUp env (getSets n)).2.2 with set := [] } : NodeServices).isVisited k =
      (getSets n).isVisited k := by
    unfold NodeServices.isVisited
    simp only
    rw [f1]
  rw [this]
  exact g6 k

/-! ## C2 and C6: no revisit, no identifier from outside the directory -/

/-- C2: in every run, for every iteration order of the frontier and whatever the network
answers, the identifiers handed to `nodeVerify` are pairwise distinct, they are at most
as many as the distinct identifiers of the directory, and `visited` only grows: an
identifier marked after `t` visits is still marked after any later visit and in the
state that `CheckPermission` returns. -/
theorem C2_each_identifier_visited_once (env : Env) (order : Nat → Nat) (n : NodeServices)
    (t : Nat) :
    (visitSeq env t order (crawlStart env n).1).Nodup ∧
    (visitSeq env t order (crawlStart env n).1).length ≤
      (n.nodos.map Nodo.Enode).dedup.length ∧
    (∀ d s1 s2 k, visits env t order (crawlStart env n).1 = some s1 →
      visits env (t + d) order (crawlStart env n).1 = some s2 →
      s1.isVisited k = true → s2.isVisited k = true) ∧
    (∀ d fecha out s s1 k, CheckPermission env order (t + d) fecha n = Run.done (out, s) →
      visits env t order (crawlStart env n).1 = some s1 →
      s1.isVisited k = true → s.isVisited k = true) := by
  have hmono : ∀ d s1 s2 k, visits env t order (crawlStart env n).1 = some s1 →
      visits env (t + d) order (crawlStart env n).1 = some s2 →
      s1.isVisited k = true → s2.isVisited k = true := by
    intro d s1 s2 k h1 h2 hk
    rw [visits_add, h1, Option.some_bind] at h2
    exact visits_mono env d _ s1 s2 h2 k hk
  by_cases herr : (crawlStart env n).2 = none
  · obtain ⟨hS, _, _, _, hkeys, _, _⟩ := crawlStart_ok env n herr
    obtain ⟨h1, h2, _⟩ := visitSeq_spec env hS t order _ (inv_init hS)
    refine ⟨h1, ?_, hmono, ?_⟩
    · have hsub : visitSeq env t order (crawlStart env n).1 ⊆
          (n.nodos.map Nodo.Enode).dedup := by
        intro k hk
        exact List.mem_dedup.mpr ((hkeys k).mp (h2 k hk).2)
      exact (List.Nodup.subperm h1 hsub).length_le
    · intro d fecha out s s1 k hdone hs1 hk
      obtain ⟨s2, _, hs, hcase⟩ := checkPermission_done env order _ fecha n out s hdone
      rcases hcase with ⟨_, hv, _⟩ | ⟨hne, _⟩
      · rw [hs, report_isVisited]
        exact hmono d s1 s2 k hs1 hv hk
      · exact absurd herr hne
  · obtain ⟨hset, hvis, _⟩ := crawlStart_fail_set env n herr
    rw [visitSeq_of_empty env t order _ hset]
    refine ⟨List.nodup_nil, Nat.zero_le _, hmono, ?_⟩
    intro d fecha out s s1 k _ hs1 hk
    rw [visits_of_empty env t order _ hset] at hs1
    injection hs1 with hs1
    rw [← hs1, hvis k] at hk
    exact Bool.noConfusion hk

theorem peerObj_incidencias (all : List (String × Nat)) (o o1 : Nodo) (peer : List String)
    (h : peerObj all o peer = some o1) :
    o1.Incidencias = o.Incidencias ++ unknownNotes all [peer] := by
  unfold peerObj at h
  split at h
  · rename_i id name remote h1 h2 h3
    split at h
    · rename_i aux haux
      injection h with h
      subst h
      simp [unknownNotes, h1, haux]
    · rename_i haux
      injection h with h
      subst h
      simp [unknownNotes, h1, haux, String.append_assoc]
  · exact Option.noConfusion h

theorem unknownNotes_cons (all : List (String × Nat)) (peer : List String)
    (rest : List (List String)) :
    unknownNotes all (peer :: rest) = unknownNotes all [peer] ++ unknownNotes all rest := by
  simp [unknownNotes]

theorem peersObj_incidencias (all : List (String × Nat)) :
    ∀ (peers : List (List String)) (o o1 : Nodo), peersObj all peers o = some o1 →
      o1.Incidencias = o.Incidencias ++ unknownNotes all peers := by
  intro peers
  induction peers with
  | nil =>
    intro o o1 h
    simp only [peersObj, Option.some.injEq] at h
    subst h
    simp [unknownNotes]
  | cons peer rest ih =>
    intro o o1 h
    unfold peersObj at h
    split at h
    · exact Option.noConfusion h
    · rename_i o2 h2
      rw [ih o2 o1 h, peerObj_incidencias all o o2 peer h2, String.append_assoc,
        ← unknownNotes_cons]

theorem inv_registered {s0 s : NodeServices} {pE : Nat} (hS : Start s0 pE) (hI : Inv s0 pE s)
    (k : String) (q : Nat) (h : mget s.all k = some q) : (s.store q).Enode = k := by
  rw [dirPart_enode (hI.dir q)]
  rcases hI.allp k with h1 | ⟨_, h1⟩
  · rw [h] at h1
    exact (hS.ptr k q h1.symm).1
  · rw [h] at h1
    exact front_enode hS h1.symm

/-- C6: `peersVerify`, run in a state whose registry files every node under its own
enode, appends to the visiting node exactly one "unknown enode" note per listed peer
whose id is not a key of `all` (naming that id, in the order of the list), leaves `all`
and `visited` unchanged, and adds to the frontier only keys of `all`; and in every state
of every run the registry has that form, every frontier key and every identifier marked
visited is an enode of the directory. -/
theorem C6_unknown_peers_reported_not_crawled (env : Env) :
    (∀ (n n1 : NodeServices) (p : Nat),
      (∀ k q, mget n.all k = some q → (n.store q).Enode = k) →
      peersVerify env n p = some n1 →
      (n1.store p).Incidencias = (n.store p).Incidencias ++
        unknownNotes n.all (env.peer_reg (n.store p).Monitor) ∧
      n1.all = n.all ∧ n1.visited = n.visited ∧
      (∀ k ∈ mkeys n1.set, k ∈ mkeys n.set ∨ k ∈ mkeys n.all)) ∧
    (∀ (order : Nat → Nat) (n : NodeServices) (t : Nat) (s : NodeServices),
      visits env t order (crawlStart env n).1 = some s →
      (∀ k q, mget s.all k = some q → (s.store q).Enode = k) ∧
      (∀ k ∈ mkeys s.all, k ∈ n.nodos.map Nodo.Enode) ∧
      (∀ k ∈ mkeys s.set, k ∈ n.nodos.map Nodo.Enode) ∧
      (∀ k, s.isVisited k = true → k ∈ n.nodos.map Nodo.Enode)) := by
  constructor
  · intro n n1 p hreg h
    unfold peersVerify at h
    rw [peersLoop_eq] at h
    cases ho : peersObj n.all (env.peer_reg (n.store p).Monitor) (n.store p) with
    | none => rw [ho] at h; exact Option.noConfusion h
    | some o1 =>
      rw [ho] at h
      simp only [Option.map_some', Option.some.injEq] at h
      subst h
      refine ⟨?_, rfl, rfl, ?_⟩
      · simp only [Function.update_same]
        exact peersObj_incidencias _ _ _ _ ho
      · intro k hk
        obtain ⟨e, he, hek⟩ := List.mem_map.mp hk
        rcases foldl_peerSet_mem _ _ _ _ _ e he with h1 | ⟨_, h2, _, _, id, _, h3⟩
        · exact Or.inl (List.mem_map.mpr ⟨e, h1, hek⟩)
        · right
          rw [← hek, h2, hreg id e.2 h3]
          exact mem_mkeys_of_mget _ _ _ h3
  · intro order n t s h
    by_cases herr : (crawlStart env n).2 = none
    · obtain ⟨hS, _, _, _, hkeys, _, _⟩ := crawlStart_ok env n herr
      have hI := (visits_inv hS t order _ s (inv_init hS) h).1
      refine ⟨inv_registered hS hI, ?_, ?_, ?_⟩
      · intro k hk
        rw [hI.keys] at hk
        exact (hkeys k).mp hk
      · intro k hk
        obtain ⟨e, he, hek⟩ := List.mem_map.mp hk
        rw [← hek]
        exact (hkeys _).mp (front_mem_keys hS (hI.fr e he).2)
      · intro k hk
        exact (hkeys k).mp (hI.vkeys k hk)
    · obtain ⟨hset, hvis, _⟩ := crawlStart_fail_set env n herr
      rw [visits_of_empty env t order _ hset] at h
      injection h with h
      subst h
      obtain ⟨f1, _⟩ := getFirst_frame env (getSets n)
      obtain ⟨_, _, _, _, _, _, g7, g8⟩ := getSets_spec n
      have hs0 : (crawlStart env n).1 =
          { (GetFirstValidatorUp env (getSets n)).2.2 with set := [] } := by
        unfold crawlStart
        rw [crawlStart_err] at herr
        simp only [herr, if_false]
      have hall : (crawlStart env n).1.all = (getSets n).all := by
        rw [hs0]; simp only; rw [f1]
      have hstore : (crawlStart env n).1.store = (getSets n).store := by
        rw [hs0]; simp only; rw [f1]
      refine ⟨?_, ?_, ?_, ?_⟩
      · intro k q hq
        rw [hall] at hq
        rw [hstore]
        exact (lastWith_mem _ _ _ (g8 k q hq).2).2
      · intro k hk
        rw [hall] at hk
        exact (g7 k).mp hk
      · intro k hk
        rw [hset] at hk
        simp [mkeys] at hk
      · intro k hk
        rw [hvis k] at hk
        exact Bool.noConfusion hk

/-- The visit of `a` in the toy network, whose snapshot lists the unknown peer `zz`, as an
instance of C6: the note naming `zz` is written and the frontier gets `b` and `c` only. -/
theorem C6_witness_toy :
    (∀ k q, mget toyMid.all k = some q → (toyMid.store q).Enode = k) ∧
    ((peersVerify envToy toyMid 0).map fun s => (s.store 0).Incidencias) =
      some "\n [*] El enode zz, no es conocido." ∧
    ((peersVerify envToy toyMid 0).map fun s => mkeys s.set) = some ["b", "c"] := by
  have hreg : ∀ k q, mget toyMid.all k = some q → (toyMid.store q).Enode = k := by
    intro k q h
    have hm := mem_of_mget _ _ _ h
    simp only [toyMid, List.mem_cons, Prod.mk.injEq, List.mem_singleton, List.not_mem_nil,
      or_false] at hm
    rcases hm with ⟨h1, h2⟩ | ⟨h1, h2⟩ | ⟨h1, h2⟩ <;> (subst h1; subst h2; rfl)
  obtain ⟨n1, hn1⟩ := isSome_exists (peersVerify envToy toyMid 0) (by decide)
  have h := ((C6_unknown_peers_reported_not_crawled envToy).1 toyMid n1 0 hreg hn1).1
  refine ⟨hreg, ?_, by decide⟩
  rw [hn1, Option.map_some', h]
  decide

/-! ## C7: the entry node -/

theorem firstUpLoop_ok_iff (env : Env) (st : String → Option String)
    (hfix : ∀ log ip, env.getJSON log ip status = st ip) :
    ∀ (l : List Nodo) (d : Nodo) (n : NodeServices),
      (firstUpLoop env l d n).2.1 = true ↔ ∃ x ∈ l, eligible st x := by
  intro l
  induction l with
  | nil => intro d n; simp [firstUpLoop]
  | cons x rest ih =>
    intro d n
    unfold firstUpLoop
    by_cases hp : x.PrivateFor = ""
    · simp only [hp, if_true]
      by_cases hup : (IsUpAndRunning env n x).1 = true
      · simp only [hup, if_true, true_iff]
        exact ⟨x, List.mem_cons_self _ _, hp, (isUp_fix env st hfix n x).mp hup⟩
      · simp only [hup, Bool.false_eq_true, if_false]
        rw [ih]
        constructor
        · rintro ⟨y, hy, he⟩
          exact ⟨y, List.mem_cons_of_mem _ hy, he⟩
        · rintro ⟨y, hy, he⟩
          rcases List.mem_cons.mp hy with h1 | h1
          · subst h1
            exact absurd ((isUp_fix env st hfix n y).mpr he.2) hup
          · exact ⟨y, h1, he⟩
    · simp only [hp, if_false]
      rw [ih]
      constructor
      · rintro ⟨y, hy, he⟩
        exact ⟨y, List.mem_cons_of_mem _ hy, he⟩
      · rintro ⟨y, hy, he⟩
        rcases List.mem_cons.mp hy with h1 | h1
        · subst h1
          exact absurd he.1 hp
        · exact ⟨y, h1, he⟩

theorem getFirst_err_iff (env : Env) (st : String → Option String)
    (hfix : ∀ log ip, env.getJSON log ip status = st ip) (n : NodeServices) :
    (GetFirstValidatorUp env n).2.1 ≠ none ↔ ∀ x ∈ n.nodos, ¬ eligible st x := by
  unfold GetFirstValidatorUp
  simp only
  have h := firstUpLoop_ok_iff env st hfix n.nodos default n
  by_cases hb : (firstUpLoop env n.nodos default n).2.1 = true
  · simp only [hb, if_true, ne_eq, not_true_eq_false, false_iff]
    intro hall
    obtain ⟨x, hx, he⟩ := h.mp hb
    exact hall x hx he
  · simp only [hb, Bool.false_eq_true, if_false, ne_eq, reduceCtorEq, not_false_eq_true,
      true_iff]
    intro x hx he
    exact hb (h.mpr ⟨x, hx, he⟩)

theorem checkPermission_fail (env : Env) (order : Nat → Nat) (fuel fecha : Nat)
    (n : NodeServices) (h : (crawlStart env n).2 ≠ none) :
    CheckPermission env order fuel fecha n =
      Run.done ((report fecha (crawlStart env n).1).2, (report fecha (crawlStart env n).1).1) := by
  unfold CheckPermission
  simp only [h, if_false]

/-- C7: with fixed answers `st` to the status probe, `GetFirstValidatorUp` returns without
error the entry at the least index whose `privateFor` is empty and whose probe answers
`"ok"`, having probed exactly the entries with empty `privateFor` up to that index (so no
entry with a non-empty `privateFor`); it returns an error exactly when the directory has
no such entry, and then `CheckPermission` returns with no identifier marked visited, an
empty frontier and no request issued beyond the probes of the scan. -/
theorem C7_first_validator_up (env : Env) (st : String → Option String) (n : NodeServices)
    (hfix : ∀ log ip, env.getJSON log ip status = st ip) :
    (∀ i x, n.nodos[i]? = some x → eligible st x →
      (∀ j y, j < i → n.nodos[j]? = some y → ¬ eligible st y) →
      (GetFirstValidatorUp env n).1 = x ∧ (GetFirstValidatorUp env n).2.1 = none ∧
      (GetFirstValidatorUp env n).2.2.log = n.log ++ probesOf (n.nodos.take (i + 1))) ∧
    ((GetFirstValidatorUp env n).2.1 ≠ none ↔ ∀ x ∈ n.nodos, ¬ eligible st x) ∧
    ((GetFirstValidatorUp env n).2.1 ≠ none → ∀ order fuel fecha, ∃ out s,
      CheckPermission env order fuel fecha n = Run.done (out, s) ∧
      (∀ k, s.isVisited k = false) ∧ s.set = [] ∧ s.log = n.log ++ probesOf n.nodos) := by
  refine ⟨?_, getFirst_err_iff env st hfix n, ?_⟩
  · intro i x hx hel hmin
    obtain ⟨hi, hxi⟩ := List.getElem?_eq_some.mp hx
    have hsplit : n.nodos = n.nodos.take i ++ x :: n.nodos.drop (i + 1) := by
      rw [← hxi, ← List.drop_eq_getElem_cons hi, List.take_append_drop]
    have hpre : ∀ y ∈ n.nodos.take i, ¬ eligible st y := by
      intro y hy
      obtain ⟨j, hj⟩ := List.mem_iff_getElem?.mp hy
      have hji : j < i := by
        obtain ⟨hlt, _⟩ := List.getElem?_eq_some.mp hj
        rw [List.length_take] at hlt
        omega
      rw [List.getElem?_take_of_lt hji] at hj
      exact hmin j y hji hj
    have h := firstUpLoop_some env st hfix (n.nodos.take i) x (n.nodos.drop (i + 1))
      default n hpre hel
    rw [← hsplit] at h
    have htake : n.nodos.take i ++ [x] = n.nodos.take (i + 1) := by
      rw [List.take_succ, hx]
      rfl
    rw [htake] at h
    unfold GetFirstValidatorUp
    simp only [h, if_true]
    trivial
  · intro herr order fuel fecha
    have hnone := (getFirst_err_iff env st hfix n).mp herr
    have herr2 : (crawlStart env n).2 ≠ none := by
      rw [crawlStart_err]
      exact (getFirst_err_iff env st hfix (getSets n)).mpr hnone
    refine ⟨_, _, checkPermission_fail env order fuel fecha n herr2, ?_, ?_, ?_⟩
    · intro k
      rw [report_isVisited]
      exact (crawlStart_fail_set env n herr2).2.1 k
    · rw [(report_frame fecha _).2.1]
      exact (crawlStart_fail_set env n herr2).1
    · rw [(report_frame fecha _).2.2.2.1, (crawlStart_fail_set env n herr2).2.2]
      unfold GetFirstValidatorUp
      simp only
      have h2 := firstUpLoop_none env st hfix (getSets n).nodos default (getSets n) hnone
      rw [h2]
      rfl

/-- A directory with a regular node, a validator that is down and one that is up, as an
instance of C7: the third entry is returned and only the two validators are probed. -/
theorem C7_witness_dirThree :
    (∀ log ip, envOnlyU.getJSON log ip status =
      (fun ip => if ip = "u" then some "ok" else none) ip) ∧
    (GetFirstValidatorUp envOnlyU (initial dirThree)).1 = mkNodo "v" "u" "" ∧
    (GetFirstValidatorUp envOnlyU (initial dirThree)).2.1 = none ∧
    (GetFirstValidatorUp envOnlyU (initial dirThree)).2.2.log =
      [Request.get "d" status, Request.get "u" status] := by
  have hfix : ∀ log ip, envOnlyU.getJSON log ip status =
      (fun ip => if ip = "u" then some "ok" else none) ip := fun _ _ => rfl
  have h := (C7_first_validator_up envOnlyU (fun ip => if ip = "u" then some "ok" else none)
    (initial dirThree) hfix).1 2 (mkNodo "v" "u" "") (by decide) (by unfold eligible; decide)
    (by
      intro j y hj hy
      have hj2 : j = 0 ∨ j = 1 := by omega
      rcases hj2 with h0 | h1
      · subst h0
        have : y = mkNodo "r" "u" "key=" := by
          simpa [initial, dirThree] using hy.symm
        subst this
        simp [eligible, mkNodo]
      · subst h1
        have : y = mkNodo "d" "d" "" := by
          simpa [initial, dirThree] using hy.symm
        subst this
        simp [eligible, mkNodo])
  refine ⟨hfix, h.1, h.2.1, ?_⟩
  rw [h.2.2]
  decide

/-! ## Visits under fixed network answers -/

theorem nodeVerify_cases (env : Env) (n n1 : NodeServices) (p : Nat)
    (h : nodeVerify env n p = some n1) :
    (env.getJSON n.log (n.store p).IP status ≠ some "ok" ∧
      n1.store = Function.update n.store p { n.store p with
        Incidencias := (n.store p).Incidencias ++ "\n [*] Parece que el monitor no está disponible." } ∧
      n1.set = mdel n.set (n.store p).Enode ∧ n1.all = n.all) ∨
    (env.getJSON n.log (n.store p).IP status = some "ok" ∧
      env.call (n.log ++ [Request.get (n.store p).IP status]) (n.store p).IP logsjson = none ∧
      n1.store = n.store ∧ n1.set = mdel n.set (n.store p).Enode ∧ n1.all = n.all) ∨
    (env.getJSON n.log (n.store p).IP status = some "ok" ∧ ∃ txt o1,
      env.call (n.log ++ [Request.get (n.store p).IP status]) (n.store p).IP logsjson = some txt ∧
      mergeObj env n.all txt (n.store p) = some o1 ∧
      n1.store = Function.update n.store p o1 ∧
      n1.set = (env.peer_reg txt).foldl
        (peerSet n.all (visitedAfter n (n.store p).Enode) fun q => (n.store q).Enode)
        (mdel n.set (n.store p).Enode) ∧
      n1.all = mput n.all (n.store p).Enode p) := by
  rw [nodeVerify_eq] at h
  unfold visitOutcome at h
  split at h
  · rename_i hup
    split at h
    · rename_i hcall
      injection h with h
      subst h
      exact Or.inr (Or.inl ⟨hup, hcall, rfl, rfl, rfl⟩)
    · rename_i txt hcall
      split at h
      · exact Option.noConfusion h
      · rename_i o1 ho1
        injection h with h
        subst h
        exact Or.inr (Or.inr ⟨hup, txt, o1, hcall, ho1, rfl, rfl, rfl⟩)
  · rename_i hup
    injection h with h
    subst h
    exact Or.inl ⟨hup, rfl, rfl, rfl⟩

theorem peerObj_congr (a b : List (String × Nat)) (hk : mkeys a = mkeys b) (o : Nodo)
    (peer : List String) : peerObj a o peer = peerObj b o peer := by
  unfold peerObj
  split
  · rename_i id name remote _ _ _
    cases ha : mget a id with
    | none =>
      have hb : mget b id = none := by
        rw [mget_eq_none_iff, ← hk, ← mget_eq_none_iff]; exact ha
      rw [hb]
    | some v =>
      cases hb : mget b id with
      | none =>
        have : mget a id = none := by
          rw [mget_eq_none_iff, hk, ← mget_eq_none_iff]; exact hb
        rw [ha] at this
        exact Option.noConfusion this
      | some w => rfl
  · rfl

theorem peersObj_congr (a b : List (String × Nat)) (hk : mkeys a = mkeys b) :
    ∀ (peers : List (List String)) (o : Nodo), peersObj a peers o = peersObj b peers o := by
  intro peers
  induction peers with
  | nil => intro o; rfl
  | cons peer rest ih =>
    intro o
    unfold peersObj
    rw [peerObj_congr a b hk]
    cases peerObj b o peer with
    | none => rfl
    | some o1 => exact ih o1

theorem mergeObj_congr (env : Env) (a b : List (String × Nat)) (hk : mkeys a = mkeys b)
    (txt : String) (o : Nodo) : mergeObj env a txt o = mergeObj env b txt o := by
  unfold mergeObj
  cases nodeInfoObj env { o with Monitor := txt } with
  | none => rfl
  | some o1 =>
    simp only
    rw [peersObj_congr a b hk]

theorem front_visitedNode {nodos : List Nodo} {entry : Nodo} {s0 : NodeServices} {pE : Nat}
    (hD : Seeded nodos entry s0 pE) {k : String} {q : Nat} (h : front s0 pE k = some q) :
    visitedNode nodos entry k = some (s0.store q) := by
  unfold front at h
  unfold visitedNode
  rw [hD.entryAt] at h
  by_cases hk : k = entry.Enode
  · simp only [hk, if_true, Option.some.injEq] at h ⊢
    rw [← h, hD.entryAt]
  · simp only [hk, if_false] at h ⊢
    exact hD.last k q h

theorem inv_store_frontier {s0 s : NodeServices} {pE : Nat} (hS : Start s0 pE) (hI : Inv s0 pE s)
    {e : String × Nat} (he : e ∈ s.set) : s.store e.2 = s0.store e.2 := by
  have hfr := hI.fr e he
  apply hI.untouched
  intro k hk hf
  have := front_inj hS hf hfr.2
  rw [this, hfr.1] at hk
  exact Bool.noConfusion hk

theorem mem_mkeys_mdel {α : Type} (m : List (String × α)) (k k2 : String) :
    k2 ∈ mkeys (mdel m k) ↔ k2 ∈ mkeys m ∧ k2 ≠ k := by
  constructor
  · intro h
    obtain ⟨e, he, hek⟩ := List.mem_map.mp h
    obtain ⟨h1, h2⟩ := (mem_mdel m k e).mp he
    exact ⟨List.mem_map.mpr ⟨e, h1, hek⟩, hek ▸ h2⟩
  · rintro ⟨h, hne⟩
    obtain ⟨e, he, hek⟩ := List.mem_map.mp h
    exact List.mem_map.mpr ⟨e, (mem_mdel m k e).mpr ⟨he, hek ▸ hne⟩, hek⟩

theorem mget_some_of_mem_keys {α : Type} (m : List (String × α)) (k : String)
    (h : k ∈ mkeys m) : ∃ v, mget m k = some v := by
  cases hm : mget m k with
  | none => exact absurd h ((mget_eq_none_iff m k).mp hm)
  | some v => exact ⟨v, rfl⟩

theorem invFix_init {env : Env} {st info : String → Option String} {nodos : List Nodo}
    {entry : Nodo} {s0 : NodeServices} {pE : Nat} (hD : Seeded nodos entry s0 pE) :
    InvFix env st info nodos entry s0 pE s0 where
  closed := by
    intro a b _ ha
    rw [hD.start.fresh a] at ha
    exact Bool.noConfusion ha
  sound := by
    intro k hk
    rcases hk with hk | hk
    · rw [hD.start.fresh k] at hk
      exact Bool.noConfusion hk
    · rw [hD.start.frontier, hD.entryAt] at hk
      simp only [mkeys, List.map_cons, List.map_nil, List.mem_singleton] at hk
      rw [hk]
  fate := by
    intro k q hk
    rw [hD.start.fresh k] at hk
    exact Bool.noConfusion hk

theorem invFix_step {env : Env} {st info : String → Option String} {nodos : List Nodo}
    {entry : Nodo} {s0 s s1 : NodeServices} {pE : Nat} (hD : Seeded nodos entry s0 pE)
    (hst : ∀ log ip, env.getJSON log ip status = st ip)
    (hinfo : ∀ log ip, env.call log ip logsjson = info ip)
    (hI : Inv s0 pE s) (hF : InvFix env st info nodos entry s0 pE s)
    {e : String × Nat} (he : e ∈ s.set) (h : nodeVerify env s e.2 = some s1) :
    InvFix env st info nodos entry s0 pE s1 := by
  have hS := hD.start
  have hfr := hI.fr e he
  have hen : (s.store e.2).Enode = e.1 := inv_enode hS hI he
  have hstore : s.store e.2 = s0.store e.2 := inv_store_frontier hS hI he
  have hvn : visitedNode nodos entry e.1 = some (s0.store e.2) := front_visitedNode hD hfr.2
  have hvis : ∀ k, s1.isVisited k = if k = e.1 then true else s.isVisited k := by
    intro k
    rw [nodeVerify_isVisited env s s1 e.2 h k, hen]
  have hself : s1.isVisited e.1 = true := by rw [hvis e.1]; simp
  have hmono : ∀ k, s.isVisited k = true → s1.isVisited k = true := by
    intro k hk
    rw [hvis k]
    split
    · rfl
    · exact hk
  have hback : ∀ k, k ≠ e.1 → s1.isVisited k = true → s.isVisited k = true := by
    intro k hne hk
    rw [hvis k] at hk
    simpa [hne] using hk
  have hekey : e.1 ∈ mkeys s.set := List.mem_map.mpr ⟨e, he, rfl⟩
  obtain ⟨_, _, _, hsto, _, hall, peers0, hset0⟩ := nodeVerify_summary env s s1 e.2 h
  have hcases := nodeVerify_cases env s s1 e.2 h
  rw [hst, hinfo, hen] at hcases
  rw [hen] at hall hset0
  have hold : ∀ k, k ∈ mkeys s.set → k ≠ e.1 → k ∈ mkeys s1.set := by
    intro k hk hne
    rw [hset0]
    exact foldl_peerSet_keys_mono _ _ _ _ _ k ((mem_mkeys_mdel _ _ _).mpr ⟨hk, hne⟩)
  have hallk : ∀ k, k ≠ e.1 → mget s1.all k = mget s.all k := by
    intro k hk
    rcases hall with h1 | h1
    · rw [h1]
    · rw [h1, mget_mput_other _ _ _ _ hk]
  refine ⟨?_, ?_, ?_⟩
  · intro a b hedge ha
    by_cases ha1 : a = e.1
    · subst ha1
      obtain ⟨x, txt, peer, hx, hup, hinf, hpeer, hid, hb⟩ := hedge
      rw [hvn] at hx
      injection hx with hx
      subst hx
      rw [← hstore] at hup hinf
      rcases hcases with ⟨hdown, _⟩ | ⟨_, hnone, _⟩ | ⟨_, txt2, o1, hcall, _, _, hset, _⟩
      · exact absurd hup hdown
      · rw [hinf] at hnone
        exact Option.noConfusion hnone
      · rw [hinf] at hcall
        injection hcall with hcall
        subst hcall
        have hbk : b ∈ mkeys s.all := by rw [hI.keys]; exact (hD.keys b).mpr hb
        obtain ⟨aux, haux⟩ := mget_some_of_mem_keys _ _ hbk
        have henb : (s.store aux).Enode = b := inv_registered hS hI b aux haux
        by_cases hvb : visitedAfter s e.1 b = true
        · left
          rw [hvis b, ← visitedAfter_eq]
          exact hvb
        · right
          have hvb2 : visitedAfter s e.1 b = false := by simpa using hvb
          rw [hset, ← henb]
          exact foldl_peerSet_add _ _ _ _ _ peer b aux hpeer hid haux (by rw [henb]; exact hvb2)
    · rcases hF.closed a b hedge (hback a ha1 ha) with h1 | h1
      · exact Or.inl (hmono b h1)
      · by_cases hb1 : b = e.1
        · left; rw [hb1]; exact hself
        · exact Or.inr (hold b h1 hb1)
  · intro k hk
    rcases hk with hk | hk
    · by_cases hk1 : k = e.1
      · rw [hk1]; exact hF.sound e.1 (Or.inr hekey)
      · exact hF.sound k (Or.inl (hback k hk1 hk))
    · obtain ⟨e2, he2, hek⟩ := List.mem_map.mp hk
      have holdcase : e2 ∈ mdel s.set e.1 →
          Relation.ReflTransGen (PeerEdge env st info nodos entry) entry.Enode k := by
        intro h1
        apply hF.sound k (Or.inr _)
        exact List.mem_map.mpr ⟨e2, ((mem_mdel _ _ _).mp h1).1, hek⟩
      rcases hcases with ⟨_, _, hset, _⟩ | ⟨_, _, _, hset, _⟩ | ⟨hup, txt, o1, hcall, _, _, hset, _⟩
      · rw [hset] at he2; exact holdcase he2
      · rw [hset] at he2; exact holdcase he2
      · rw [hset] at he2
        rcases foldl_peerSet_mem _ _ _ _ _ e2 he2 with h1 | ⟨_, h2, peer, hpeer, id, hid, h3⟩
        · exact holdcase h1
        · have hkid : k = id := by
            rw [← hek, h2]
            exact inv_registered hS hI id e2.2 h3
          have hidk : id ∈ nodos.map Nodo.Enode := by
            apply (hD.keys id).mp
            rw [← hI.keys]
            exact mem_mkeys_of_mget _ _ _ h3
          have hedge : PeerEdge env st info nodos entry e.1 k := by
            rw [hkid]
            refine ⟨s0.store e.2, txt, peer, hvn, ?_, ?_, hpeer, hid, hidk⟩
            · rw [← hstore]; exact hup
            · rw [← hstore]; exact hcall
          exact Relation.ReflTransGen.tail (hF.sound e.1 (Or.inr hekey)) hedge
  · intro k q hk hf
    by_cases hk1 : k = e.1
    · subst hk1
      rw [hfr.2] at hf
      injection hf with hf
      subst hf
      have hall0 : mget s.all e.1 = mget s0.all e.1 := by
        rcases hI.allp e.1 with h1 | h1
        · exact h1
        · rw [hfr.1] at h1
          exact Bool.noConfusion h1.1
      unfold fateOf
      rw [← hstore]
      rcases hcases with ⟨hdown, hsto1, _, hal⟩ | ⟨hup, hnone, hsto1, _, hal⟩ |
          ⟨hup, txt, o1, hcall, hmerge, hsto1, _, hal⟩
      · refine ⟨s1.store e.2, false, ?_, rfl, ?_⟩
        · rw [hsto1, Function.update_same]
          simp only [hdown, if_false]
        · rw [hal]; simpa using hall0
      · refine ⟨s1.store e.2, false, ?_, rfl, ?_⟩
        · rw [hsto1]
          simp only [hup, if_true, hnone]
        · rw [hal]; simpa using hall0
      · refine ⟨o1, true, ?_, ?_, ?_⟩
        · simp only [hup, if_true, hcall]
          rw [← mergeObj_congr env s.all s0.all hI.keys, hmerge]
        · rw [hsto1, Function.update_same]
        · rw [hal, mget_mput_same]; rfl
    · obtain ⟨o, m, h1, h2, h3⟩ := hF.fate k q (hback k hk1 hk) hf
      refine ⟨o, m, h1, ?_, ?_⟩
      · rw [← h2]
        apply hsto
        intro hq
        subst hq
        exact hk1 (front_inj hS hf hfr.2)
      · rw [hallk k hk1]
        exact h3

theorem visits_invFix {env : Env} {st info : String → Option String} {nodos : List Nodo}
    {entry : Nodo} {s0 : NodeServices} {pE : Nat} (hD : Seeded nodos entry s0 pE)
    (hst : ∀ log ip, env.getJSON log ip status = st ip)
    (hinfo : ∀ log ip, env.call log ip logsjson = info ip) :
    ∀ (t : Nat) (order : Nat → Nat) (s s1 : NodeServices), Inv s0 pE s →
      InvFix env st info nodos entry s0 pE s → visits env t order s = some s1 →
      InvFix env st info nodos entry s0 pE s1 := by
  intro t
  induction t with
  | zero =>
    intro order s s1 _ hF h
    simp only [visits, Option.some.injEq] at h
    subst h
    exact hF
  | succ t ih =>
    intro order s s1 hI hF h
    rw [visits_succ] at h
    split at h
    · injection h with h
      subst h
      exact hF
    · rename_i e hpick
      have he := List.getElem?_mem hpick
      split at h
      · exact Option.noConfusion h
      · rename_i s2 hv
        exact ih _ s2 s1 (inv_step hD.start hI he hv) (invFix_step hD hst hinfo hI hF he hv) h

theorem isUp_indep (env : Env) (st : String → Option String)
    (hfix : ∀ log ip, env.getJSON log ip status = st ip) (n n2 : NodeServices) (x : Nodo) :
    (IsUpAndRunning env n x).1 = (IsUpAndRunning env n2 x).1 := by
  unfold IsUpAndRunning
  simp only [hfix]

theorem firstUpLoop_indep (env : Env) (st : String → Option String)
    (hfix : ∀ log ip, env.getJSON log ip status = st ip) :
    ∀ (l : List Nodo) (d : Nodo) (n n2 : NodeServices),
      (firstUpLoop env l d n).1 = (firstUpLoop env l d n2).1 ∧
      (firstUpLoop env l d n).2.1 = (firstUpLoop env l d n2).2.1 := by
  intro l
  induction l with
  | nil => intro d n n2; exact ⟨rfl, rfl⟩
  | cons x rest ih =>
    intro d n n2
    unfold firstUpLoop
    by_cases hp : x.PrivateFor = ""
    · simp only [hp, if_true]
      rw [isUp_indep env st hfix n n2 x]
      by_cases hup : (IsUpAndRunning env n2 x).1 = true
      · simp only [hup, if_true, and_self]
      · simp only [hup, Bool.false_eq_true, if_false]
        exact ih x _ _
    · simp only [hp, if_false]
      exact ih x _ _

theorem getFirst_getSets (env : Env) (st : String → Option String)
    (hfix : ∀ log ip, env.getJSON log ip status = st ip) (n : NodeServices) :
    (GetFirstValidatorUp env (getSets n)).1 = (GetFirstValidatorUp env n).1 ∧
    (GetFirstValidatorUp env (getSets n)).2.1 = (GetFirstValidatorUp env n).2.1 := by
  unfold GetFirstValidatorUp
  obtain ⟨h1, h2⟩ := firstUpLoop_indep env st hfix n.nodos default (getSets n) n
  have hn : (getSets n).nodos = n.nodos := rfl
  simp only [hn, h1, h2, and_self]

theorem crawlStart_seeded (env : Env) (n : NodeServices) (h : (crawlStart env n).2 = none) :
    Seeded n.nodos (GetFirstValidatorUp env (getSets n)).1 (crawlStart env n).1
      (getSets n).next := by
  obtain ⟨hS, hE, _, _, hkeys, hlast, _⟩ := crawlStart_ok env n h
  exact ⟨hS, hE, hlast, hkeys⟩

theorem reach_visited {env : Env} {st info : String → Option String} {nodos : List Nodo}
    {entry : Nodo} {s0 s : NodeServices} {pE : Nat} (hD : Seeded nodos entry s0 pE)
    (hI : Inv s0 pE s) (hF : InvFix env st info nodos entry s0 pE s) (hempty : s.set = [])
    (k : String) (hk : Relation.ReflTransGen (PeerEdge env st info nodos entry) entry.Enode k) :
    s.isVisited k = true := by
  induction hk with
  | refl =>
    rcases hI.entry with h1 | h1
    · rw [hD.entryAt] at h1; exact h1
    · rw [hempty] at h1
      exact absurd h1 (by simp)
  | tail _ hedge ih =>
    rcases hF.closed _ _ hedge ih with h1 | h1
    · exact h1
    · rw [hempty] at h1
      simp [mkeys] at h1

/-- C1: under fixed network answers and with an entry node found, `CheckPermission`, given a
budget of at least one visit per directory entry, does not exhaust it, whatever the
iteration order; and whenever it returns, the frontier is empty and every identifier
reachable from the entry identifier along peer edges is marked visited. -/
theorem C1_reachable_nodes_visited (env : Env) (st info : String → Option String)
    (n : NodeServices) (order : Nat → Nat) (fuel fecha : Nat)
    (hst : ∀ log ip, env.getJSON log ip status = st ip)
    (hinfo : ∀ log ip, env.call log ip logsjson = info ip)
    (hentry : (GetFirstValidatorUp env n).2.1 = none)
    (hfuel : n.nodos.length ≤ fuel) :
    CheckPermission env order fuel fecha n ≠ Run.timeout ∧
    ∀ out s, CheckPermission env order fuel fecha n = Run.done (out, s) →
      s.set = [] ∧
      ∀ k, Relation.ReflTransGen (PeerEdge env st info n.nodos (GetFirstValidatorUp env n).1)
          (GetFirstValidatorUp env n).1.Enode k → s.isVisited k = true := by
  obtain ⟨hg1, hg2⟩ := getFirst_getSets env st hst n
  have herr : (crawlStart env n).2 = none := by
    rw [crawlStart_err, hg2]; exact hentry
  have hD := crawlStart_seeded env n herr
  rw [hg1] at hD
  have hS := hD.start
  have hlen : (mkeys (crawlStart env n).1.all).length ≤ fuel := by
    rw [(crawlStart_ok env n herr).2.2.2.1]
    exact Nat.le_trans (keys_length_le n) hfuel
  constructor
  · unfold CheckPermission crawl
    simp only [herr, if_true]
    cases hv : visits env fuel order (crawlStart env n).1 with
    | none => simp
    | some s1 =>
      have hempty := visits_frontier_empty hS fuel order s1 hv hlen
      simp [hempty]
  · intro out s hdone
    obtain ⟨s1, _, hs, hcase⟩ := checkPermission_done env order fuel fecha n out s hdone
    rcases hcase with ⟨_, hv, hempty⟩ | ⟨hne, _⟩
    · have hI := (visits_inv hS fuel order _ s1 (inv_init hS) hv).1
      have hF := visits_invFix hD hst hinfo fuel order _ s1 (inv_init hS) (invFix_init hD) hv
      refine ⟨by rw [hs, (report_frame fecha s1).2.1]; exact hempty, ?_⟩
      intro k hk
      rw [hs, report_isVisited]
      exact reach_visited hD hI hF hempty k hk
    · exact absurd herr hne

/-- The toy network as an instance of C1: the hypotheses hold there. -/
theorem C1_witness_toy :
    (∀ log ip, envToy.getJSON log ip status = stToy ip) ∧
    (∀ log ip, envToy.call log ip logsjson = infoToy ip) ∧
    (GetFirstValidatorUp envToy (initial dirToy)).2.1 = none ∧
    (initial dirToy).nodos.length ≤ 3 ∧
    (CheckPermission envToy (fun _ => 0) 3 0 (initial dirToy) ≠ Run.timeout ∧
     ∀ out s, CheckPermission envToy (fun _ => 0) 3 0 (initial dirToy) = Run.done (out, s) →
      s.set = [] ∧
      ∀ k, Relation.ReflTransGen
          (PeerEdge envToy stToy infoToy (initial dirToy).nodos
            (GetFirstValidatorUp envToy (initial dirToy)).1)
          (GetFirstValidatorUp envToy (initial dirToy)).1.Enode k → s.isVisited k = true) :=
  ⟨fun _ _ => rfl, fun _ _ => rfl, by decide, by decide,
    C1_reachable_nodes_visited envToy stToy infoToy (initial dirToy) (fun _ => 0) 3 0
      (fun _ _ => rfl) (fun _ _ => rfl) (by decide) (by decide)⟩


/-! ## The report -/

theorem reportStep_spec (fecha : Nat) (acc : NodeServices × List Nodo) (e : String × Nat) :
    (∀ q, dirPart ((reportStep fecha acc e).1.store q) = dirPart (acc.1.store q)) ∧
    (∀ q, (acc.1.store q).Incidencias.length ≤
      ((reportStep fecha acc e).1.store q).Incidencias.length) ∧
    (∀ x ∈ acc.2, x ∈ (reportStep fecha acc e).2) ∧
    (acc.1.isVisited e.1 = false ∨ (acc.1.store e.2).Incidencias.length > 0 →
      ∃ x ∈ (reportStep fecha acc e).2,
        dirPart x = dirPart (acc.1.store e.2) ∧ x.Incidencias.length > 0) := by
  have hmsg : "\n [*] Parece que el nodo está fuera de línea.".length > 0 := by decide
  unfold reportStep
  simp only [NodeServices.modify, NodeServices.isVisited, Function.update_same,
    Function.update_idem]
  by_cases hv : (mget acc.1.visited e.1).getD false = true
  · simp only [hv, Bool.not_true, Bool.false_eq_true, if_false, Function.update_same]
    by_cases hl : (acc.1.store e.2).Incidencias.length > 0
    · simp only [hl, if_true]
      refine ⟨?_, ?_, ?_, ?_⟩
      · intro q
        by_cases hq : q = e.2
        · subst hq; simp [dirPart]
        · simp [Function.update_noteq hq]
      · intro q
        by_cases hq : q = e.2
        · subst hq; simp
        · simp [Function.update_noteq hq]
      · intro x hx
        exact List.mem_append_left _ hx
      · intro _
        exact ⟨_, List.mem_append_right _ (List.mem_singleton_self _), rfl, hl⟩
    · simp only [hl, if_false]
      refine ⟨?_, ?_, ?_, ?_⟩
      · intro q
        by_cases hq : q = e.2
        · subst hq; simp [dirPart]
        · simp [Function.update_noteq hq]
      · intro q
        by_cases hq : q = e.2
        · subst hq; simp
        · simp [Function.update_noteq hq]
      · intro x hx
        exact hx
      · intro h
        rcases h with h | h <;> simp at h
  · have hv2 : (mget acc.1.visited e.1).getD false = false := by simpa using hv
    simp only [hv2, Bool.not_false, if_true, Function.update_same, String.length_append]
    have hpos : (acc.1.store e.2).Incidencias.length +
        "\n [*] Parece que el nodo está fuera de línea.".length > 0 := by omega
    simp only [hpos, if_true]
    refine ⟨?_, ?_, ?_, ?_⟩
    · intro q
      by_cases hq : q = e.2
      · subst hq; simp [dirPart]
      · simp [Function.update_noteq hq]
    · intro q
      by_cases hq : q = e.2
      · subst hq; simp
      · simp [Function.update_noteq hq]
    · intro x hx
      exact List.mem_append_left _ hx
    · intro _
      refine ⟨_, List.mem_append_right _ (List.mem_singleton_self _), rfl, ?_⟩
      simp only [String.length_append]
      exact hpos

theorem report_foldl_mono (fecha : Nat) :
    ∀ (l : List (String × Nat)) (acc : NodeServices × List Nodo) (x : Nodo),
      x ∈ acc.2 → x ∈ (l.foldl (reportStep fecha) acc).2 := by
  intro l
  induction l with
  | nil => intro acc x h; exact h
  | cons e rest ih =>
    intro acc x h
    rw [List.foldl_cons]
    exact ih _ x ((reportStep_spec fecha acc e).2.2.1 x h)

theorem report_foldl_spec (fecha : Nat) :
    ∀ (l : List (String × Nat)) (acc : NodeServices × List Nodo) (e : String × Nat),
      e ∈ l → (acc.1.isVisited e.1 = false ∨ (acc.1.store e.2).Incidencias.length > 0) →
      ∃ x ∈ (l.foldl (reportStep fecha) acc).2,
        dirPart x = dirPart (acc.1.store e.2) ∧ x.Incidencias.length > 0 := by
  intro l
  induction l with
  | nil => intro acc e h; simp at h
  | cons e1 rest ih =>
    intro acc e he hc
    rw [List.foldl_cons]
    obtain ⟨h1, h2, _, h4⟩ := reportStep_spec fecha acc e1
    rcases List.mem_cons.mp he with h | h
    · subst h
      obtain ⟨x, hx, hd, hl⟩ := h4 hc
      exact ⟨x, report_foldl_mono fecha rest _ x hx, hd, hl⟩
    · have hc2 : (reportStep fecha acc e1).1.isVisited e.1 = false ∨
          ((reportStep fecha acc e1).1.store e.2).Incidencias.length > 0 := by
        rcases hc with hc | hc
        · left
          unfold NodeServices.isVisited at hc ⊢
          rw [(reportStep_frame fecha acc e1).1]
          exact hc
        · right
          exact Nat.lt_of_lt_of_le hc (h2 e.2)
      obtain ⟨x, hx, hd, hl⟩ := ih _ e h hc2
      exact ⟨x, hx, hd.trans (h1 e.2), hl⟩

theorem report_spec (fecha : Nat) (n : NodeServices) (e : String × Nat) (he : e ∈ n.all)
    (hc : n.isVisited e.1 = false ∨ (n.store e.2).Incidencias.length > 0) :
    ∃ x ∈ (report fecha n).2, dirPart x = dirPart (n.store e.2) ∧ x.Incidencias.length > 0 :=
  report_foldl_spec fecha n.all (n, []) e he hc

/-! ## C4: nodes that are down -/

theorem firstUpLoop_answered (env : Env) :
    ∀ (l : List Nodo) (d : Nodo) (n : NodeServices),
      (firstUpLoop env l d n).2.1 = true →
      ∃ log, env.getJSON log (firstUpLoop env l d n).1.IP status = some "ok" := by
  intro l
  induction l with
  | nil => intro d n h; simp [firstUpLoop] at h
  | cons x rest ih =>
    intro d n h
    unfold firstUpLoop at h ⊢
    by_cases hp : x.PrivateFor = ""
    · simp only [hp, if_true] at h ⊢
      by_cases hup : (IsUpAndRunning env n x).1 = true
      · simp only [hup, if_true]
        refine ⟨n.log, ?_⟩
        unfold IsUpAndRunning at hup
        simp only at hup
        cases hj : env.getJSON n.log x.IP status with
        | none => rw [hj] at hup; exact Bool.noConfusion hup
        | some r =>
          rw [hj] at hup
          simp only [decide_eq_true_eq] at hup
          rw [hup]
      · simp only [hup, Bool.false_eq_true, if_false] at h ⊢
        exact ih x _ h
    · simp only [hp, if_false] at h ⊢
      exact ih x _ h

theorem entry_answered (env : Env) (n : NodeServices)
    (h : (GetFirstValidatorUp env n).2.1 = none) :
    ∃ log, env.getJSON log (GetFirstValidatorUp env n).1.IP status = some "ok" := by
  unfold GetFirstValidatorUp at h ⊢
  simp only at h ⊢
  apply firstUpLoop_answered env
  by_cases hb : (firstUpLoop env n.nodos default n).2.1 = true
  · exact hb
  · simp [hb] at h

theorem visits_down (env : Env) {s0 : NodeServices} {pE : Nat} (hS : Start s0 pE) :
    ∀ (t : Nat) (order : Nat → Nat) (s s1 : NodeServices), Inv s0 pE s →
      (∀ k q, s.isVisited k = true → front s0 pE k = some q →
        (∀ log, env.getJSON log (s0.store q).IP status ≠ some "ok") →
        (s.store q).Incidencias.length > 0) →
      visits env t order s = some s1 →
      (∀ k q, s1.isVisited k = true → front s0 pE k = some q →
        (∀ log, env.getJSON log (s0.store q).IP status ≠ some "ok") →
        (s1.store q).Incidencias.length > 0) := by
  intro t
  induction t with
  | zero =>
    intro order s s1 _ hdn h
    simp only [visits, Option.some.injEq] at h
    subst h
    exact hdn
  | succ t ih =>
    intro order s s1 hI hdn h
    rw [visits_succ] at h
    split at h
    · injection h with h
      subst h
      exact hdn
    · rename_i e hpick
      have he := List.getElem?_mem hpick
      split at h
      · exact Option.noConfusion h
      · rename_i s2 hv
        apply ih _ s2 s1 (inv_step hS hI he hv) _ h
        intro k q hk hf hdown
        have hfr := hI.fr e he
        have hen : (s.store e.2).Enode = e.1 := inv_enode hS hI he
        have hstore : s.store e.2 = s0.store e.2 := inv_store_frontier hS hI he
        obtain ⟨_, _, _, hsto, _, _, _, _⟩ := nodeVerify_summary env s s2 e.2 hv
        by_cases hk1 : k = e.1
        · subst hk1
          rw [hfr.2] at hf
          injection hf with hf
          subst hf
          have hcases := nodeVerify_cases env s s2 e.2 hv
          rw [hstore] at hcases
          rcases hcases with ⟨_, hsto1, _⟩ | ⟨hup, _⟩ | ⟨hup, _⟩
          · rw [hsto1, Function.update_same]
            simp only [String.length_append]
            have : "\n [*] Parece que el monitor no está disponible.".length > 0 := by decide
            omega
          · exact absurd hup (hdown _)
          · exact absurd hup (hdown _)
        · have hks : s.isVisited k = true := by
            rw [nodeVerify_isVisited env s s2 e.2 hv k, hen] at hk
            simpa [hk1] using hk
          have hq : q ≠ e.2 := by
            intro hq
            subst hq
            exact hk1 (front_inj hS hf hfr.2)
          rw [hsto q hq]
          exact hdn k q hks hf hdown

theorem crawlStart_fail_state (env : Env) (n : NodeServices) (h : (crawlStart env n).2 ≠ none) :
    (crawlStart env n).1.all = (getSets n).all ∧
    (crawlStart env n).1.store = (getSets n).store := by
  obtain ⟨f1, _⟩ := getFirst_frame env (getSets n)
  have hs0 : (crawlStart env n).1 =
      { (GetFirstValidatorUp env (getSets n)).2.2 with set := [] } := by
    unfold crawlStart
    rw [crawlStart_err] at h
    simp only [h, if_false]
  constructor
  · rw [hs0]; simp only; rw [f1]
  · rw [hs0]; simp only; rw [f1]

/-- C4 (amended): every directory node whose enode no other directory entry shares and
whose address never answers the status probe with `"ok"` is in the list that
`CheckPermission` returns (same directory fields) with a non-empty incident text, whether
it was visited or not. -/
theorem C4_down_nodes_reported (env : Env) (n : NodeServices)
    (order : Nat → Nat) (fuel fecha : Nat) (out : List Nodo) (s : NodeServices) (X : Nodo)
    (hX : X ∈ n.nodos) (hunique : ∀ Y ∈ n.nodos, Y.Enode = X.Enode → Y = X)
    (hdown : ∀ log, env.getJSON log X.IP status ≠ some "ok")
    (hrun : CheckPermission env order fuel fecha n = Run.done (out, s)) :
    ∃ x ∈ out, dirPart x = dirPart X ∧ x.Incidencias.length > 0 := by
  obtain ⟨s1, hout, _, hcase⟩ := checkPermission_done env order fuel fecha n out s hrun
  have hXk : X.Enode ∈ n.nodos.map Nodo.Enode := List.mem_map.mpr ⟨X, hX, rfl⟩
  have hlastX : lastWith n.nodos X.Enode = some X := by
    cases hl : lastWith n.nodos X.Enode with
    | none => exact absurd hXk ((lastWith_none_iff _ _).mp hl)
    | some Y =>
      obtain ⟨hY, hYe⟩ := lastWith_mem _ _ _ hl
      rw [hunique Y hY hYe]
  rw [hout]
  rcases hcase with ⟨herr, hv, _⟩ | ⟨herr, hs1⟩
  · have hD := crawlStart_seeded env n herr
    have hS := hD.start
    have hI := (visits_inv hS fuel order _ s1 (inv_init hS) hv).1
    have hdn := visits_down env hS fuel order _ s1 (inv_init hS)
      (by
        intro k q hk
        rw [hS.fresh k] at hk
        exact Bool.noConfusion hk) hv
    obtain ⟨q0, hq0⟩ := mget_some_of_mem_keys _ _ ((hD.keys X.Enode).mpr hXk)
    have hsq : (crawlStart env n).1.store q0 = X := by
      have := hD.last _ _ hq0
      rw [hlastX] at this
      injection this with this
      exact this.symm
    have herr2 : (GetFirstValidatorUp env (getSets n)).2.1 = none := by
      rw [← crawlStart_err]; exact herr
    obtain ⟨logE, hel⟩ := entry_answered env (getSets n) herr2
    have hmemE := (crawlStart_ok env n herr).2.2.1
    have hne : X.Enode ≠ ((crawlStart env n).1.store (getSets n).next).Enode := by
      rw [hD.entryAt]
      intro heq
      have h2 := hunique _ hmemE heq.symm
      rw [h2] at hel
      exact hdown logE hel
    have hfront : front (crawlStart env n).1 (getSets n).next X.Enode = some q0 := by
      unfold front
      simp only [hne, if_false]
      exact hq0
    have hall : mget s1.all X.Enode = some q0 := by
      rcases hI.allp X.Enode with h1 | ⟨_, h1⟩
      · rw [h1]; exact hq0
      · rw [h1]; exact hfront
    have hcond : s1.isVisited X.Enode = false ∨ (s1.store q0).Incidencias.length > 0 := by
      by_cases hvis : s1.isVisited X.Enode = true
      · right
        apply hdn X.Enode q0 hvis hfront
        rw [hsq]
        exact hdown
      · left
        simpa using hvis
    obtain ⟨x, hx, hd, hl⟩ := report_spec fecha s1 (X.Enode, q0) (mem_of_mget _ _ _ hall) hcond
    refine ⟨x, hx, ?_, hl⟩
    rw [hd, hI.dir q0, hsq]
  · obtain ⟨hall, hstore⟩ := crawlStart_fail_state env n herr
    obtain ⟨_, _, _, _, _, _, g7, g8⟩ := getSets_spec n
    obtain ⟨q0, hq0⟩ := mget_some_of_mem_keys _ _ ((g7 X.Enode).mpr hXk)
    have hsq : (getSets n).store q0 = X := by
      have := (g8 _ _ hq0).2
      rw [hlastX] at this
      injection this with this
      exact this.symm
    have hmem : (X.Enode, q0) ∈ s1.all := by
      rw [hs1, hall]
      exact mem_of_mget _ _ _ hq0
    have hcond : s1.isVisited X.Enode = false ∨ (s1.store q0).Incidencias.length > 0 := by
      left
      rw [hs1]
      exact (crawlStart_fail_set env n herr).2.1 _
    obtain ⟨x, hx, hd, hl⟩ := report_spec fecha s1 (X.Enode, q0) hmem hcond
    refine ⟨x, hx, ?_, hl⟩
    rw [hd, hs1, hstore, hsq]

/-- A directory that lists the enode `e` twice, once at an address that is down and once
at an address that is up and healthy: the run finishes and reports nothing, so the entry
that is down is not in the returned list. -/
theorem C4_counterexample_duplicate_enode :
    mkNodo "e" "9" "" ∈ dirDup ∧ (∀ log, envDup.getJSON log "9" status = none) ∧
    isDone (CheckPermission envDup (fun _ => 0) 2 0 (initial dirDup)) = true ∧
    outOf (CheckPermission envDup (fun _ => 0) 2 0 (initial dirDup)) = [] :=
  ⟨by decide, fun _ => rfl, by decide, by decide⟩

/-- The node `c` of the toy network, which is down, as an instance of C4. -/
theorem C4_witness_toy :
    mkNodo "c" "3" "" ∈ (initial dirToy).nodos ∧
    (∀ Y ∈ (initial dirToy).nodos, Y.Enode = (mkNodo "c" "3" "").Enode →
      Y = mkNodo "c" "3" "") ∧
    (∀ log, envToy.getJSON log (mkNodo "c" "3" "").IP status ≠ some "ok") ∧
    ∃ x ∈ outOf (CheckPermission envToy (fun _ => 0) 3 0 (initial dirToy)),
      dirPart x = dirPart (mkNodo "c" "3" "") ∧ x.Incidencias.length > 0 := by
  have hu : ∀ Y ∈ (initial dirToy).nodos, Y.Enode = (mkNodo "c" "3" "").Enode →
      Y = mkNodo "c" "3" "" := by decide
  have hd : ∀ log, envToy.getJSON log (mkNodo "c" "3" "").IP status ≠ some "ok" := by
    intro log
    show stToy "3" ≠ some "ok"
    decide
  refine ⟨by decide, hu, hd, ?_⟩
  obtain ⟨r, hr⟩ := isDone_exists (CheckPermission envToy (fun _ => 0) 3 0 (initial dirToy))
    (by decide)
  have h := C4_down_nodes_reported envToy (initial dirToy) (fun _ => 0) 3 0 r.1 r.2
    (mkNodo "c" "3" "") (by decide) hu hd hr
  rw [hr]
  exact h
/-! ## C5: a failed snapshot fetch -/

/-- The branch of `nodeVerify` for a node that does not answer the status probe with
`"ok"`: the node is marked visited, removed from the frontier, and the note that its
monitor is not available is appended to its incident text. -/
theorem nodeVerify_status_failure (env : Env) (n : NodeServices) (p : Nat)
    (hdown : env.getJSON n.log (n.store p).IP status ≠ some "ok") :
    nodeVerify env n p = some { n with
      visited := mput n.visited (n.store p).Enode true
      set := mdel n.set (n.store p).Enode
      store := Function.update n.store p { n.store p with
        Incidencias := (n.store p).Incidencias ++ "\n [*] Parece que el monitor no está disponible." }
      log := n.log ++ [Request.get (n.store p).IP status] } := by
  rw [nodeVerify_eq]
  unfold visitOutcome
  simp only [hdown, if_false]

/-- The branch of `nodeVerify` for a node that answers the status probe with `"ok"` and
whose snapshot fetch returns an error (`if err == nil` without an else): the node is
marked visited, removed from the frontier and the two requests are logged; the store is
untouched, so, unlike in the branch of `nodeVerify_status_failure`, no incident is
appended. The crawl goes on with the remaining frontier. -/
theorem nodeVerify_fetch_error (env : Env) (n : NodeServices) (p : Nat)
    (hup : env.getJSON n.log (n.store p).IP status = some "ok")
    (herr : env.call (n.log ++ [Request.get (n.store p).IP status]) (n.store p).IP logsjson
      = none) :
    nodeVerify env n p = some { n with
      visited := mput n.visited (n.store p).Enode true
      set := mdel n.set (n.store p).Enode
      log := n.log ++ [Request.get (n.store p).IP status, Request.get (n.store p).IP logsjson] } ∧
    (∀ (t : Nat) (order : Nat → Nat) (k : String),
      n.set[order 0 % n.set.length]? = some (k, p) →
      visits env (t + 1) order n = visits env t (fun i => order (i + 1)) { n with
        visited := mput n.visited (n.store p).Enode true
        set := mdel n.set (n.store p).Enode
        log := n.log ++
          [Request.get (n.store p).IP status, Request.get (n.store p).IP logsjson] }) := by
  have h1 : nodeVerify env n p = some { n with
      visited := mput n.visited (n.store p).Enode true
      set := mdel n.set (n.store p).Enode
      log := n.log ++
        [Request.get (n.store p).IP status, Request.get (n.store p).IP logsjson] } := by
    rw [nodeVerify_eq]
    unfold visitOutcome
    simp only [hup, if_true, herr]
  refine ⟨h1, ?_⟩
  intro t order k hpick
  rw [visits_succ, hpick]
  simp only [h1]

/-- C5, where the code departs from it: in the one-node directory `[e]` the node answers
the status probe with `"ok"` and its snapshot fetch returns an error. `nodeVerify`
returns with the node marked visited and its incident text still empty, and
`CheckPermission` finishes with the node visited and an empty list: the node whose
snapshot could not be fetched carries no incident and is not part of the report. -/
theorem C5_fetch_error_not_reported :
    envFetchFails.getJSON [] "1" status = some "ok" ∧
    envFetchFails.call [Request.get "1" status] "1" logsjson = none ∧
    ((nodeVerify envFetchFails startFetchFails 1).map fun s => (s.store 1).Incidencias)
      = some "" ∧
    ((nodeVerify envFetchFails startFetchFails 1).map fun s => s.isVisited "e") = some true ∧
    isDone (CheckPermission envFetchFails (fun _ => 0) 1 0 (initial [mkNodo "e" "1" ""]))
      = true ∧
    visitedIn (CheckPermission envFetchFails (fun _ => 0) 1 0 (initial [mkNodo "e" "1" ""])) "e"
      = true ∧
    outOf (CheckPermission envFetchFails (fun _ => 0) 1 0 (initial [mkNodo "e" "1" ""])) = [] := by
  decide

/-! ## C3: the report does not depend on the iteration order -/

theorem reportStep_eq (fecha : Nat) (acc : NodeServices × List Nodo) (e : String × Nat) :
    reportStep fecha acc e =
      ({ acc.1 with
          store := Function.update acc.1.store e.2
            (reportObj fecha (acc.1.isVisited e.1) (acc.1.store e.2)) },
       if (reportObj fecha (acc.1.isVisited e.1) (acc.1.store e.2)).Incidencias.length > 0 then
         acc.2 ++ [reportObj fecha (acc.1.isVisited e.1) (acc.1.store e.2)]
       else acc.2) := by
  unfold reportStep reportObj
  simp only [NodeServices.modify, NodeServices.isVisited, Function.update_same,
    Function.update_idem]
  by_cases hv : (mget acc.1.visited e.1).getD false = true
  · simp only [hv, Bool.not_true, Bool.false_eq_true, if_false, Function.update_same]
    split <;> rfl
  · have hv2 : (mget acc.1.visited e.1).getD false = false := by simpa using hv
    simp only [hv2, Bool.not_false, if_true, Function.update_same]
    split <;> rfl

theorem reportObj_clear (f1 f2 : Nat) (v : Bool) (o1 o2 : Nodo)
    (h : clearDate o1 = clearDate o2) :
    clearDate (reportObj f1 v o1) = clearDate (reportObj f2 v o2) ∧
    (reportObj f1 v o1).Incidencias = (reportObj f2 v o2).Incidencias := by
  have hi : o1.Incidencias = o2.Incidencias := by
    have := congrArg Nodo.Incidencias h
    simpa [clearDate] using this
  unfold reportObj
  cases v with
  | true =>
    simp only [Bool.not_true, Bool.false_eq_true, if_false]
    refine ⟨?_, hi⟩
    simpa [clearDate] using h
  | false =>
    simp only [Bool.not_false, if_true, hi, and_true]
    simp only [clearDate, Nodo.mk.injEq] at h ⊢
    simp [h]

theorem report_keys_congr (f1 f2 : Nat) (p1 p2 : String → Nat) :
    ∀ (keys : List String) (a1 a2 : NodeServices × List Nodo),
      keys.Nodup →
      (∀ k ∈ keys, ∀ k2 ∈ keys, p1 k = p1 k2 → k = k2) →
      (∀ k ∈ keys, ∀ k2 ∈ keys, p2 k = p2 k2 → k = k2) →
      (∀ k, a1.1.isVisited k = a2.1.isVisited k) →
      (∀ k ∈ keys, clearDate (a1.1.store (p1 k)) = clearDate (a2.1.store (p2 k))) →
      a1.2.map clearDate = a2.2.map clearDate →
      ((keys.map fun k => (k, p1 k)).foldl (reportStep f1) a1).2.map clearDate =
        ((keys.map fun k => (k, p2 k)).foldl (reportStep f2) a2).2.map clearDate := by
  intro keys
  induction keys with
  | nil => intro a1 a2 _ _ _ _ _ h; exact h
  | cons k rest ih =>
    intro a1 a2 hn hi1 hi2 hv hs ho
    rw [List.map_cons, List.map_cons, List.foldl_cons, List.foldl_cons]
    rw [List.nodup_cons] at hn
    have hk := List.mem_cons_self k rest
    obtain ⟨hc, hi⟩ := reportObj_clear f1 f2 (a1.1.isVisited k) (a1.1.store (p1 k))
      (a2.1.store (p2 k)) (hs k hk)
    apply ih _ _ hn.2
    · intro x hx y hy
      exact hi1 x (List.mem_cons_of_mem _ hx) y (List.mem_cons_of_mem _ hy)
    · intro x hx y hy
      exact hi2 x (List.mem_cons_of_mem _ hx) y (List.mem_cons_of_mem _ hy)
    · intro x
      unfold NodeServices.isVisited
      rw [(reportStep_frame f1 a1 _).1, (reportStep_frame f2 a2 _).1]
      exact hv x
    · intro x hx
      have hxk : x ≠ k := by
        intro e
        rw [e] at hx
        exact hn.1 hx
      have hp1 : p1 x ≠ p1 k := fun e => hxk (hi1 x (List.mem_cons_of_mem _ hx) k hk e)
      have hp2 : p2 x ≠ p2 k := fun e => hxk (hi2 x (List.mem_cons_of_mem _ hx) k hk e)
      rw [reportStep_eq, reportStep_eq]
      simp only
      rw [Function.update_noteq hp1, Function.update_noteq hp2]
      exact hs x (List.mem_cons_of_mem _ hx)
    · rw [reportStep_eq, reportStep_eq]
      simp only
      rw [← hv k, hi]
      split
      · rw [List.map_append, List.map_append, ho]
        simp only [List.map_cons, List.map_nil, hc]
      · exact ho

theorem map_eq_keys_map (f : String → Nat) :
    ∀ (m : List (String × Nat)), (∀ e ∈ m, f e.1 = e.2) →
      m = (mkeys m).map fun k => (k, f k) := by
  intro m
  induction m with
  | nil => intro _; rfl
  | cons e m ih =>
    intro h
    have h1 := h e (List.mem_cons_self _ _)
    have h2 := ih (fun x hx => h x (List.mem_cons_of_mem _ hx))
    simp only [mkeys, List.map_cons] at h2 ⊢
    rw [← h2, h1]

/-- Two registries with the same keys in the same order, each filing every node under its
own enode, with the same visited marks and the same node behind every key, give the same
report up to the time stamp. -/
theorem report_congr (f1 f2 : Nat) (t1 t2 : NodeServices)
    (hn : (mkeys t1.all).Nodup) (hkeys : mkeys t1.all = mkeys t2.all)
    (hr1 : ∀ k q, mget t1.all k = some q → (t1.store q).Enode = k)
    (hr2 : ∀ k q, mget t2.all k = some q → (t2.store q).Enode = k)
    (hv : ∀ k, t1.isVisited k = t2.isVisited k)
    (hs : ∀ k q1 q2, mget t1.all k = some q1 → mget t2.all k = some q2 →
      t1.store q1 = t2.store q2) :
    (report f1 t1).2.map clearDate = (report f2 t2).2.map clearDate := by
  have hn2 : (mkeys t2.all).Nodup := hkeys ▸ hn
  obtain ⟨p1, hp1⟩ : ∃ p1 : String → Nat, ∀ k, p1 k = (mget t1.all k).getD 0 :=
    ⟨_, fun _ => rfl⟩
  obtain ⟨p2, hp2⟩ : ∃ p2 : String → Nat, ∀ k, p2 k = (mget t2.all k).getD 0 :=
    ⟨_, fun _ => rfl⟩
  have e1 : t1.all = (mkeys t1.all).map fun k => (k, p1 k) := by
    apply map_eq_keys_map
    intro e he
    rw [hp1, mget_of_mem _ e.1 e.2 hn he]
    rfl
  have e2 : t2.all = (mkeys t1.all).map fun k => (k, p2 k) := by
    rw [hkeys]
    apply map_eq_keys_map
    intro e he
    rw [hp2, mget_of_mem _ e.1 e.2 hn2 he]
    rfl
  have hinj1 : ∀ k ∈ mkeys t1.all, ∀ k2 ∈ mkeys t1.all, p1 k = p1 k2 → k = k2 := by
    intro k hk k2 hk2 he
    obtain ⟨q, hq⟩ := mget_some_of_mem_keys _ _ hk
    obtain ⟨q2, hq2⟩ := mget_some_of_mem_keys _ _ hk2
    rw [hp1, hp1, hq, hq2] at he
    simp only [Option.getD_some] at he
    subst he
    exact (hr1 k q hq).symm.trans (hr1 k2 q hq2)
  have hinj2 : ∀ k ∈ mkeys t1.all, ∀ k2 ∈ mkeys t1.all, p2 k = p2 k2 → k = k2 := by
    intro k hk k2 hk2 he
    obtain ⟨q, hq⟩ := mget_some_of_mem_keys _ _ (hkeys ▸ hk)
    obtain ⟨q2, hq2⟩ := mget_some_of_mem_keys _ _ (hkeys ▸ hk2)
    rw [hp2, hp2, hq, hq2] at he
    simp only [Option.getD_some] at he
    subst he
    exact (hr2 k q hq).symm.trans (hr2 k2 q hq2)
  have r1 : report f1 t1 =
      ((mkeys t1.all).map fun k => (k, p1 k)).foldl (reportStep f1) (t1, []) :=
    congrArg (fun l => List.foldl (reportStep f1) (t1, []) l) e1
  have r2 : report f2 t2 =
      ((mkeys t1.all).map fun k => (k, p2 k)).foldl (reportStep f2) (t2, []) :=
    congrArg (fun l => List.foldl (reportStep f2) (t2, []) l) e2
  rw [r1, r2]
  apply report_keys_congr f1 f2 p1 p2 (mkeys t1.all) (t1, []) (t2, []) hn hinj1 hinj2 hv
  · intro k hk
    obtain ⟨q1, hq1⟩ := mget_some_of_mem_keys _ _ hk
    obtain ⟨q2, hq2⟩ := mget_some_of_mem_keys _ _ (hkeys ▸ hk)
    simp only
    rw [hp1, hp2, hq1, hq2]
    simp only [Option.getD_some]
    rw [hs k q1 q2 hq1 hq2]
  · rfl

theorem front_defined (s0 : NodeServices) (pE : Nat) (k : String) (h : k ∈ mkeys s0.all) :
    ∃ q, front s0 pE k = some q := by
  unfold front
  by_cases hk : k = (s0.store pE).Enode
  · exact ⟨pE, by simp [hk]⟩
  · obtain ⟨q, hq⟩ := mget_some_of_mem_keys _ _ h
    exact ⟨q, by simp [hk, hq]⟩

theorem final_visited_eq {env : Env} {st info : String → Option String} {nodos : List Nodo}
    {entry : Nodo} {a0 b0 s1 s2 : NodeServices} {pA pB : Nat}
    (hA : Seeded nodos entry a0 pA) (hB : Seeded nodos entry b0 pB)
    (hI1 : Inv a0 pA s1) (hF1 : InvFix env st info nodos entry a0 pA s1) (he1 : s1.set = [])
    (hI2 : Inv b0 pB s2) (hF2 : InvFix env st info nodos entry b0 pB s2) (he2 : s2.set = [])
    (k : String) : s1.isVisited k = s2.isVisited k := by
  cases h1 : s1.isVisited k with
  | true => exact (reach_visited hB hI2 hF2 he2 k (hF1.sound k (Or.inl h1))).symm
  | false =>
    cases h2 : s2.isVisited k with
    | false => rfl
    | true =>
      have := reach_visited hA hI1 hF1 he1 k (hF2.sound k (Or.inl h2))
      rw [h1] at this
      exact Bool.noConfusion this

theorem fateOf_congr (env : Env) (st info : String → Option String)
    (a b : List (String × Nat)) (hk : mkeys a = mkeys b) (o : Nodo) :
    fateOf env st info a o = fateOf env st info b o := by
  unfold fateOf
  split
  · split
    · rfl
    · rw [mergeObj_congr env a b hk]
  · rfl

/-- The node filed under `k` in the final state of a crawl, in terms of the directory. -/
theorem final_content {env : Env} {st info : String → Option String} {nodos : List Nodo}
    {entry : Nodo} {s0 s : NodeServices} {pE : Nat} (hD : Seeded nodos entry s0 pE)
    (hI : Inv s0 pE s) (hF : InvFix env st info nodos entry s0 pE s)
    (k : String) (q : Nat) (hq : mget s.all k = some q) :
    (s.isVisited k = false ∧ lastWith nodos k = some (s.store q)) ∨
    (s.isVisited k = true ∧ ∃ x o m, visitedNode nodos entry k = some x ∧
      fateOf env st info s0.all x = some (o, m) ∧
      ((m = true ∧ s.store q = o) ∨
       (m = false ∧ k ≠ entry.Enode ∧ s.store q = o) ∨
       (m = false ∧ k = entry.Enode ∧ lastWith nodos k = some (s.store q)))) := by
  have hS := hD.start
  have huntouched : mget s0.all k = some q →
      (s.isVisited k = false ∨ k = (s0.store pE).Enode) →
      lastWith nodos k = some (s.store q) := by
    intro h0 hc
    have hno : ∀ k2, s.isVisited k2 = true → front s0 pE k2 ≠ some q := by
      intro k2 hk2 hf
      have e1 := front_enode hS hf
      have e2 := (hS.ptr k q h0).1
      have hkk : k2 = k := e1.symm.trans e2
      subst hkk
      rcases hc with hc | hc
      · rw [hc] at hk2
        exact Bool.noConfusion hk2
      · unfold front at hf
        simp only [hc, if_true, Option.some.injEq] at hf
        exact (hS.ptr k2 q h0).2 hf.symm
    rw [hI.untouched q hno]
    exact hD.last k q h0
  cases h1 : s.isVisited k with
  | false =>
    left
    refine ⟨rfl, ?_⟩
    have a1 : mget s.all k = mget s0.all k := by
      rcases hI.allp k with h | h
      · exact h
      · rw [h1] at h; exact Bool.noConfusion h.1
    rw [a1] at hq
    exact huntouched hq (Or.inl h1)
  | true =>
    right
    refine ⟨rfl, ?_⟩
    obtain ⟨qf, hqf⟩ := front_defined s0 pE k (hI.vkeys k h1)
    obtain ⟨o, m, f1, g1, a1⟩ := hF.fate k qf h1 hqf
    refine ⟨s0.store qf, o, m, front_visitedNode hD hqf, f1, ?_⟩
    cases m with
    | true =>
      simp only [if_true] at a1
      rw [a1] at hq
      injection hq with hq
      subst hq
      exact Or.inl ⟨rfl, g1⟩
    | false =>
      simp only [Bool.false_eq_true, if_false] at a1
      rw [a1] at hq
      by_cases hk0 : k = (s0.store pE).Enode
      · right; right
        refine ⟨rfl, ?_, huntouched hq (Or.inr hk0)⟩
        rw [hk0, hD.entryAt]
      · right; left
        refine ⟨rfl, ?_, ?_⟩
        · rw [← hD.entryAt]; exact hk0
        · have : qf = q := by
            unfold front at hqf
            simp only [hk0, if_false] at hqf
            rw [hq] at hqf
            injection hqf with hqf
            exact hqf.symm
          subst this
          exact g1

theorem final_content_eq {env : Env} {st info : String → Option String} {nodos : List Nodo}
    {entry : Nodo} {a0 b0 s1 s2 : NodeServices} {pA pB : Nat}
    (hA : Seeded nodos entry a0 pA) (hB : Seeded nodos entry b0 pB)
    (hkeys : mkeys a0.all = mkeys b0.all)
    (hI1 : Inv a0 pA s1) (hF1 : InvFix env st info nodos entry a0 pA s1)
    (hI2 : Inv b0 pB s2) (hF2 : InvFix env st info nodos entry b0 pB s2)
    (hv : ∀ k, s1.isVisited k = s2.isVisited k) (k : String) (q1 q2 : Nat)
    (h1 : mget s1.all k = some q1) (h2 : mget s2.all k = some q2) :
    s1.store q1 = s2.store q2 := by
  have c1 := final_content hA hI1 hF1 k q1 h1
  have c2 := final_content hB hI2 hF2 k q2 h2
  simp only [fateOf_congr env st info a0.all b0.all hkeys] at c1
  rcases c1 with ⟨v1, l1⟩ | ⟨v1, x1, o1, m1, n1, f1, r1⟩
  · rcases c2 with ⟨_, l2⟩ | ⟨v2, _⟩
    · rw [l1] at l2
      injection l2
    · rw [← hv k, v1] at v2
      exact Bool.noConfusion v2
  · rcases c2 with ⟨v2, _⟩ | ⟨_, x2, o2, m2, n2, f2, r2⟩
    · rw [← hv k, v1] at v2
      exact Bool.noConfusion v2
    · rw [n1] at n2
      injection n2 with n2
      subst n2
      rw [f1] at f2
      injection f2 with f2
      injection f2 with ho hm
      subst ho
      subst hm
      rcases r1 with ⟨hm1, g1⟩ | ⟨hm1, hk1, g1⟩ | ⟨hm1, hk1, g1⟩
      · rcases r2 with ⟨_, g2⟩ | ⟨hm2, _⟩ | ⟨hm2, _⟩
        · rw [g1, g2]
        · rw [hm1] at hm2
          exact Bool.noConfusion hm2
        · rw [hm1] at hm2
          exact Bool.noConfusion hm2
      · rcases r2 with ⟨hm2, _⟩ | ⟨_, _, g2⟩ | ⟨_, hk2, _⟩
        · rw [hm1] at hm2
          exact Bool.noConfusion hm2
        · rw [g1, g2]
        · exact absurd hk2 hk1
      · rcases r2 with ⟨hm2, _⟩ | ⟨_, hk2, _⟩ | ⟨_, _, g2⟩
        · rw [hm1] at hm2
          exact Bool.noConfusion hm2
        · exact absurd hk1 hk2
        · rw [g1] at g2
          injection g2

theorem mkeys_mput_congr {α β : Type} (a : List (String × α)) (b : List (String × β))
    (h : mkeys a = mkeys b) (k : String) (v : α) (w : β) :
    mkeys (mput a k v) = mkeys (mput b k w) := by
  by_cases hk : k ∈ mkeys a
  · rw [mkeys_mput_of_mem a k v hk, mkeys_mput_of_mem b k w (h ▸ hk)]
    exact h
  · rw [mkeys_mput_of_not_mem a k v hk, mkeys_mput_of_not_mem b k w (h ▸ hk), h]

theorem getSetsLoop_keys_congr :
    ∀ (rest : List Nodo) (next1 next2 : Nat) (store1 store2 : Nat → Nodo)
      (vis1 vis2 : List (String × Bool)) (all1 all2 : List (String × Nat)),
      mkeys all1 = mkeys all2 →
      mkeys (getSetsLoop rest next1 store1 vis1 all1).2.2.2 =
        mkeys (getSetsLoop rest next2 store2 vis2 all2).2.2.2 := by
  intro rest
  induction rest with
  | nil => intro _ _ _ _ _ _ _ _ h; exact h
  | cons x rest ih =>
    intro next1 next2 store1 store2 vis1 vis2 all1 all2 h
    unfold getSetsLoop
    exact ih _ _ _ _ _ _ _ _ (mkeys_mput_congr all1 all2 h x.Enode next1 next2)

theorem getSets_keys_congr (n1 n2 : NodeServices) (h : n1.nodos = n2.nodos) :
    mkeys (getSets n1).all = mkeys (getSets n2).all := by
  unfold getSets
  simp only
  rw [h]
  exact getSetsLoop_keys_congr n2.nodos _ _ _ _ _ _ _ _ rfl

theorem getFirst_congr (env : Env) (st : String → Option String)
    (hfix : ∀ log ip, env.getJSON log ip status = st ip) (n1 n2 : NodeServices)
    (h : n1.nodos = n2.nodos) :
    (GetFirstValidatorUp env n1).1 = (GetFirstValidatorUp env n2).1 ∧
    (GetFirstValidatorUp env n1).2.1 = (GetFirstValidatorUp env n2).2.1 := by
  unfold GetFirstValidatorUp
  obtain ⟨h1, h2⟩ := firstUpLoop_indep env st hfix n2.nodos default n1 n2
  simp only [h, h1, h2, and_self]

/-- C3: under fixed network answers, two finished runs of `CheckPermission` on the same
directory (started in any two states of the service, with any two iteration orders of the
frontier, any budgets and any time stamps) return the same nodes with the same contents,
hence the same incident text on each, up to `LastUpdate` and the order of the list. -/
theorem C3_report_independent_of_order (env : Env) (st info : String → Option String)
    (n1 n2 : NodeServices) (order1 order2 : Nat → Nat) (fuel1 fuel2 fecha1 fecha2 : Nat)
    (out1 out2 : List Nodo) (s1 s2 : NodeServices)
    (hst : ∀ log ip, env.getJSON log ip status = st ip)
    (hinfo : ∀ log ip, env.call log ip logsjson = info ip)
    (hdir : n1.nodos = n2.nodos)
    (h1 : CheckPermission env order1 fuel1 fecha1 n1 = Run.done (out1, s1))
    (h2 : CheckPermission env order2 fuel2 fecha2 n2 = Run.done (out2, s2)) :
    (out1.map clearDate).Perm (out2.map clearDate) := by
  obtain ⟨t1, ho1, _, hc1⟩ := checkPermission_done env order1 fuel1 fecha1 n1 out1 s1 h1
  obtain ⟨t2, ho2, _, hc2⟩ := checkPermission_done env order2 fuel2 fecha2 n2 out2 s2 h2
  rw [ho1, ho2]
  apply List.Perm.of_eq
  have hgk := getSets_keys_congr n1 n2 hdir
  obtain ⟨hent, herrs⟩ := getFirst_congr env st hst (getSets n1) (getSets n2) hdir
  have herr12 : (crawlStart env n1).2 = (crawlStart env n2).2 := by
    rw [crawlStart_err, crawlStart_err]; exact herrs
  rcases hc1 with ⟨herr, hv1, he1⟩ | ⟨herr, hs1⟩
  · rcases hc2 with ⟨herr2, hv2, he2⟩ | ⟨herr2, _⟩
    · have hA := crawlStart_seeded env n1 herr
      have hB := crawlStart_seeded env n2 herr2
      rw [← hdir, ← hent] at hB
      have hkeys : mkeys (crawlStart env n1).1.all = mkeys (crawlStart env n2).1.all := by
        rw [(crawlStart_ok env n1 herr).2.2.2.1, (crawlStart_ok env n2 herr2).2.2.2.1]
        exact hgk
      have hI1 := (visits_inv hA.start fuel1 order1 _ t1 (inv_init hA.start) hv1).1
      have hI2 := (visits_inv hB.start fuel2 order2 _ t2 (inv_init hB.start) hv2).1
      have hF1 := visits_invFix hA hst hinfo fuel1 order1 _ t1 (inv_init hA.start)
        (invFix_init hA) hv1
      have hF2 := visits_invFix hB hst hinfo fuel2 order2 _ t2 (inv_init hB.start)
        (invFix_init hB) hv2
      have hv := final_visited_eq hA hB hI1 hF1 he1 hI2 hF2 he2
      apply report_congr fecha1 fecha2 t1 t2
      · rw [hI1.keys]; exact hA.start.nodup
      · rw [hI1.keys, hI2.keys]; exact hkeys
      · exact inv_registered hA.start hI1
      · exact inv_registered hB.start hI2
      · exact hv
      · exact final_content_eq hA hB hkeys hI1 hF1 hI2 hF2 hv
    · rw [herr12] at herr
      exact absurd herr herr2
  · rcases hc2 with ⟨herr2, _, _⟩ | ⟨herr2, hs2⟩
    · rw [herr12] at herr
      exact absurd herr2 herr
    · obtain ⟨ha1, hst1⟩ := crawlStart_fail_state env n1 herr
      obtain ⟨ha2, hst2⟩ := crawlStart_fail_state env n2 herr2
      obtain ⟨_, _, _, _, g5, _, _, g8⟩ := getSets_spec n1
      obtain ⟨_, _, _, _, _, _, _, k8⟩ := getSets_spec n2
      rw [hs1, hs2]
      apply report_congr fecha1 fecha2
      · rw [ha1]; exact g5
      · rw [ha1, ha2]; exact hgk
      · intro k q hq
        rw [ha1] at hq
        rw [hst1]
        exact (lastWith_mem _ _ _ (g8 k q hq).2).2
      · intro k q hq
        rw [ha2] at hq
        rw [hst2]
        exact (lastWith_mem _ _ _ (k8 k q hq).2).2
      · intro k
        rw [(crawlStart_fail_set env n1 herr).2.1 k, (crawlStart_fail_set env n2 herr2).2.1 k]
      · intro k q1 q2 hq1 hq2
        rw [ha1] at hq1
        rw [ha2] at hq2
        rw [hst1, hst2]
        have e1 := (g8 k q1 hq1).2
        have e2 := (k8 k q2 hq2).2
        rw [hdir, e2] at e1
        injection e1 with e1
        exact e1.symm

/-- Two runs on the toy network, one on a fresh service and one on a used one, visiting in
different orders, as an instance of C3. -/
theorem C3_witness_toy :
    (∀ log ip, envToy.getJSON log ip status = stToy ip) ∧
    (∀ log ip, envToy.call log ip logsjson = infoToy ip) ∧
    (initial dirToy).nodos = usedToy.nodos ∧
    isDone (CheckPermission envToy (fun _ => 0) 3 5 (initial dirToy)) = true ∧
    isDone (CheckPermission envToy (fun _ => 1) 4 9 usedToy) = true ∧
    ((outOf (CheckPermission envToy (fun _ => 0) 3 5 (initial dirToy))).map clearDate).Perm
      ((outOf (CheckPermission envToy (fun _ => 1) 4 9 usedToy)).map clearDate) := by
  refine ⟨fun _ _ => rfl, fun _ _ => rfl, rfl, by decide, by decide, ?_⟩
  obtain ⟨r1, hr1⟩ := isDone_exists (CheckPermission envToy (fun _ => 0) 3 5 (initial dirToy))
    (by decide)
  obtain ⟨r2, hr2⟩ := isDone_exists (CheckPermission envToy (fun _ => 1) 4 9 usedToy)
    (by decide)
  have h := C3_report_independent_of_order envToy stToy infoToy (initial dirToy) usedToy
    (fun _ => 0) (fun _ => 1) 3 4 5 9 r1.1 r2.1 r1.2 r2.2 (fun _ _ => rfl) (fun _ _ => rfl) rfl
    hr1 hr2
  rw [hr1, hr2]
  exact h

/-! ## C10: snapshots in which a pattern has no match -/

/-- A live node whose fetched snapshot has no match of the node-info pattern makes
`nodeVerify` panic, whatever the rest of the state. -/
theorem nodeVerify_panics_without_nodeInfo (env : Env) (n : NodeServices) (p : Nat) (txt : String)
    (hup : env.getJSON n.log (n.store p).IP status = some "ok")
    (hfetch : env.call (n.log ++ [Request.get (n.store p).IP status]) (n.store p).IP logsjson
      = some txt)
    (hno : env.nodeInfo_reg txt = []) : nodeVerify env n p = none := by
  rw [nodeVerify_eq]
  unfold visitOutcome mergeObj nodeInfoObj
  simp [hup, hfetch, hno]

/-- A live validator node without coinbase yet whose snapshot has a match of the node-info
pattern but none of the coinbase pattern makes `ibftExtraction` panic. -/
theorem ibftExtraction_panics_without_coinbase (env : Env) (n : NodeServices) (p : Nat)
    (hpriv : (n.store p).PrivateFor = "") (hcb : (n.store p).Coinbase = "")
    (hno : env.coinbase (n.store p).Monitor = []) : ibftExtraction env n p = none := by
  unfold ibftExtraction
  simp [hpriv, hcb, hno]

/-- C10: a live node whose snapshot is the empty text (no pattern has a match in it) makes
`nodeInfoVerify` index an empty match list: the run of `CheckPermission` ends in a panic
instead of returning. -/
theorem C10_empty_snapshot_panics :
    envOk.getJSON [] "1" status = some "ok" ∧
    envOk.call [Request.get "1" status] "1" logsjson = some "" ∧
    envOk.nodeInfo_reg "" = [] ∧
    isPanic (CheckPermission envOk (fun _ => 0) 1 0 (initial [mkNodo "e" "1" ""])) = true := by
  decide

end Monitor
